import Mathlib

/-!
Verification of the anchor-link-updater heading-link synchronization core.

The TypeScript source operates on JavaScript strings with regular
expressions.  We embed document text as `List Char` and translate each
regex-driven pass into an explicit left-to-right scanner that mirrors the
backtracking behaviour of the concrete pattern used by the source (the
patterns are simple enough that their match semantics can be computed
deterministically position by position).
-/

namespace AnchorLink

/-- Character class of the JavaScript regex `\s` (ECMAScript WhiteSpace and
LineTerminator code points); used by `^(#{1,6})\s+(.*)$` in
`extractHeadings` and by `String.prototype.trim`. -/
def isJsSpace (c : Char) : Bool :=
  c == ' ' || c == '\t' || c == '\n' || c == '\u000B' || c == '\u000C' ||
  c == '\r' || c == '\u00A0' || c == '\u1680' || c == '\u2000' ||
  c == '\u2001' || c == '\u2002' || c == '\u2003' || c == '\u2004' ||
  c == '\u2005' || c == '\u2006' || c == '\u2007' || c == '\u2008' ||
  c == '\u2009' || c == '\u200A' || c == '\u2028' || c == '\u2029' ||
  c == '\u202F' || c == '\u205F' || c == '\u3000' || c == '\uFEFF'

/-- ECMAScript LineTerminator code points: the characters that `.` does not
match, that multiline `^`/`$` anchor around. -/
def isLineTerm (c : Char) : Bool :=
  c == '\n' || c == '\r' || c == '\u2028' || c == '\u2029'

theorem isJsSpace_of_isLineTerm {c : Char} (h : isLineTerm c = true) :
    isJsSpace c = true := by
  simp only [isLineTerm, Bool.or_eq_true, beq_iff_eq] at h
  rcases h with ((h | h) | h) | h <;> subst h <;> decide

/-- JavaScript `String.prototype.trim`: strip leading and trailing
whitespace. -/
def jsTrim (l : List Char) : List Char :=
  ((l.dropWhile isJsSpace).reverse.dropWhile isJsSpace).reverse

/-- One match attempt of `^(#{1,6})\s+(.*)$` at the current position
(which the caller guarantees to be a line start).  Returns the trimmed
captured heading text together with the remaining input after the match
(`.*` stops at the next line terminator, which `$` then accepts).
`#{1,6}` fails when the hash run is longer than 6 because the character
after at most 6 hashes is another `#`, never whitespace. -/
def tryHeading (cs : List Char) : Option (List Char × List Char) :=
  let r := (cs.takeWhile (· == '#')).length
  if 1 ≤ r ∧ r ≤ 6 then
    let afterHash := cs.drop r
    let ws := afterHash.takeWhile isJsSpace
    if ws = [] then none
    else
      let afterWs := afterHash.drop ws.length
      let body := afterWs.takeWhile (fun c => !isLineTerm c)
      some (jsTrim body, afterWs.drop body.length)
  else none

/-- Global scan of `/^(#{1,6})\s+(.*)$/gm` over the input: attempt a match
at every line-start position, continue after the end of each match.  The
`Bool` records whether the current position is a line start (position 0,
or right after a line terminator). -/
def scanHeadings : Nat → Bool → List Char → List (List Char)
  | _, _, [] => []
  | 0, _, _ => []
  | fuel + 1, atStart, c :: cs =>
    if atStart then
      match tryHeading (c :: cs) with
      | some (h, rest) => h :: scanHeadings fuel false rest
      | none => scanHeadings fuel (isLineTerm c) cs
    else scanHeadings fuel (isLineTerm c) cs

/-- `extractHeadings` from `main.ts`: all headings of a markdown document,
in document order, trimmed. -/
def extractHeadings (content : List Char) : List (List Char) :=
  scanHeadings content.length true content

/-- `HeadingChange` from `main.ts`: one detected rename. -/
structure HeadingChange where
  oldHeading : List Char
  newHeading : List Char
deriving DecidableEq, Repr

/-- `getHeadingChanges` from `main.ts`.  `removed`/`added` use JS `Set.has`
(string membership); the fallback branch mirrors the JS truthiness test
`oldH && newH && oldH !== newH`, under which an out-of-range index
(`undefined`) and the empty string are both falsy. -/
def getHeadingChanges (oldHeadings newHeadings : List (List Char)) :
    List HeadingChange :=
  let removed := oldHeadings.filter (fun h => !(newHeadings.contains h))
  let added := newHeadings.filter (fun h => !(oldHeadings.contains h))
  if removed.length = added.length then
    List.zipWith (fun o n => HeadingChange.mk o n) removed added
  else
    (List.range (max oldHeadings.length newHeadings.length)).filterMap
      (fun i =>
        match oldHeadings.get? i, newHeadings.get? i with
        | some o, some n =>
          if o ≠ [] ∧ n ≠ [] ∧ o ≠ n then some (HeadingChange.mk o n) else none
        | _, _ => none)

/-- C1: when the removed and added heading lists have equal length,
`getHeadingChanges` pairs them index by index, removed[i] with added[i],
in order. -/
theorem C1_equal_count_pairing
    (oldHeadings newHeadings : List (List Char))
    (h : (oldHeadings.filter (fun h => !(newHeadings.contains h))).length
       = (newHeadings.filter (fun h => !(oldHeadings.contains h))).length) :
    getHeadingChanges oldHeadings newHeadings
      = List.zipWith (fun o n => HeadingChange.mk o n)
          (oldHeadings.filter (fun h => !(newHeadings.contains h)))
          (newHeadings.filter (fun h => !(oldHeadings.contains h))) := by
  unfold getHeadingChanges
  simp only [h, if_pos]

/-- C1 witness: the claim's concrete instance
`getHeadingChanges(["A","B"], ["X","B"]) = [{oldHeading:"A", newHeading:"X"}]`. -/
theorem C1_equal_count_pairing_witness :
    getHeadingChanges ["A".data, "B".data] ["X".data, "B".data]
      = [HeadingChange.mk "A".data "X".data] := by
  have h := C1_equal_count_pairing ["A".data, "B".data] ["X".data, "B".data]
    (by decide)
  simpa using h

/-! Generic helper lemmas about `takeWhile`, `dropWhile` and `drop` used to
compute scanner steps on decomposed inputs. -/

theorem takeWhile_append_stop {p : α → Bool} (xs : List α) {y : α} {ys : List α}
    (hy : p y = false) : (xs ++ y :: ys).takeWhile p = xs.takeWhile p := by
  induction xs with
  | nil => simp [List.takeWhile_cons, hy]
  | cons x xs ih => by_cases h : p x <;> simp [List.takeWhile_cons, h, ih]

theorem dropWhile_append_stop {p : α → Bool} (xs : List α) {y : α} {ys : List α}
    (hy : p y = false) : (xs ++ y :: ys).dropWhile p = xs.dropWhile p ++ y :: ys := by
  induction xs with
  | nil => simp [List.dropWhile_cons, hy]
  | cons x xs ih => by_cases h : p x <;> simp [List.dropWhile_cons, h, ih]

theorem takeWhile_append_any {p : α → Bool} {xs : List α}
    (h : xs.any (fun c => !p c) = true) (ys : List α) :
    (xs ++ ys).takeWhile p = xs.takeWhile p := by
  induction xs with
  | nil => simp at h
  | cons x xs ih =>
    by_cases hx : p x
    · simp only [hx, Bool.not_true, Bool.false_or, List.any_cons] at h
      simp [List.takeWhile_cons, hx, ih h]
    · simp [List.takeWhile_cons, hx]

theorem dropWhile_append_any {p : α → Bool} {xs : List α}
    (h : xs.any (fun c => !p c) = true) (ys : List α) :
    (xs ++ ys).dropWhile p = xs.dropWhile p ++ ys := by
  induction xs with
  | nil => simp at h
  | cons x xs ih =>
    by_cases hx : p x
    · simp only [hx, Bool.not_true, Bool.false_or, List.any_cons] at h
      simp [List.dropWhile_cons, hx, ih h]
    · simp [List.dropWhile_cons, hx]

theorem drop_length_takeWhile (p : α → Bool) (l : List α) :
    l.drop (l.takeWhile p).length = l.dropWhile p := by
  induction l with
  | nil => rfl
  | cons x xs ih =>
    by_cases h : p x <;> simp [List.takeWhile_cons, List.dropWhile_cons, h, ih]

theorem length_takeWhile_le_self (p : α → Bool) (l : List α) :
    (l.takeWhile p).length ≤ l.length :=
  (List.takeWhile_sublist p).length_le

theorem head_dropWhile_false {p : α → Bool} :
    ∀ {l : List α} {y : α} {ys : List α}, l.dropWhile p = y :: ys → p y = false := by
  intro l
  induction l with
  | nil => intro y ys h; simp at h
  | cons x xs ih =>
    intro y ys h
    by_cases hx : p x
    · rw [List.dropWhile_cons_of_pos hx] at h
      exact ih h
    · rw [List.dropWhile_cons_of_neg hx] at h
      obtain ⟨rfl, -⟩ := List.cons.injEq .. ▸ h
      simpa using hx

/-- A line terminator is never `#`. -/
theorem hash_ne_of_lineTerm {c : Char} (h : isLineTerm c = true) :
    (c == '#') = false := by
  simp only [isLineTerm, Bool.or_eq_true, beq_iff_eq] at h
  rcases h with ((h | h) | h) | h <;> subst h <;> decide

theorem jsTrim_dropWhile (l : List Char) :
    jsTrim (l.dropWhile isJsSpace) = jsTrim l := by
  unfold jsTrim
  rw [List.dropWhile_idempotent]

/-! Specification-side model of `extractHeadings`, following the spec's
words: split the document into lines at line terminators; a line whose
leading run of 1 to 6 `#` characters is followed by a whitespace character
contributes the remainder after the hashes, trimmed; every other line
contributes nothing. -/

/-- Lines of a document, splitting at every line terminator (the
terminators are not part of any line). -/
def linesOf : List Char → List (List Char)
  | [] => [[]]
  | c :: cs =>
    if isLineTerm c then [] :: linesOf cs
    else
      match linesOf cs with
      | [] => [[c]]
      | l :: ls => (c :: l) :: ls

/-- Heading contributed by a single line according to the spec: 1 to 6 `#`
characters followed by at least one whitespace character; the entry is the
remainder of the line trimmed of surrounding whitespace. -/
def lineHeading (line : List Char) : Option (List Char) :=
  let r := (line.takeWhile (· == '#')).length
  if 1 ≤ r ∧ r ≤ 6 ∧ (line.drop r).head?.any isJsSpace = true then
    some (jsTrim (line.drop r))
  else none

/-- Line-by-line heading extraction as described by the spec sentence of
claim C6. -/
def extractHeadingsSpec (content : List Char) : List (List Char) :=
  (linesOf content).filterMap lineHeading

/-- A line is well behaved for the scanner/line-model correspondence when
its hash marker (if it has one of length 1 to 6) is followed by some
non-whitespace character on the same line; this rules out lines whose
`\s+` run would spill across the line terminator into the next line. -/
def goodLine (line : List Char) : Bool :=
  let r := (line.takeWhile (· == '#')).length
  decide (¬(1 ≤ r ∧ r ≤ 6)) || (line.drop r).any (fun c => !isJsSpace c)

/-- Every line of the content is well behaved (see `goodLine`). -/
def cleanHeadingLines (content : List Char) : Bool :=
  (linesOf content).all goodLine

theorem linesOf_nt {l : List Char} (hnt : ∀ c ∈ l, isLineTerm c = false) :
    linesOf l = [l] := by
  induction l with
  | nil => rfl
  | cons c l' ih =>
    have hc : isLineTerm c = false := hnt c (by simp)
    have ih' := ih (fun x hx => hnt x (by simp [hx]))
    simp [linesOf, hc, ih']

theorem linesOf_append_term {L : List Char} (hnt : ∀ c ∈ L, isLineTerm c = false)
    {t : Char} (ht : isLineTerm t = true) (rest : List Char) :
    linesOf (L ++ t :: rest) = L :: linesOf rest := by
  induction L with
  | nil => simp [linesOf, ht]
  | cons c L' ih =>
    have hc : isLineTerm c = false := hnt c (by simp)
    have ih' := ih (fun x hx => hnt x (by simp [hx]))
    simp [linesOf, hc, ih']

/-! Step lemmas for the scanner, phrased through the fuel-independent
wrapper `scanH`. -/

theorem tryHeading_rest_lt {cs : List Char} {hd rest : List Char}
    (e : tryHeading cs = some (hd, rest)) : rest.length < cs.length := by
  simp only [tryHeading] at e
  split at e
  · next hr =>
    split at e
    · exact absurd e (by simp)
    · next hws =>
      simp only [Option.some.injEq, Prod.mk.injEq] at e
      obtain ⟨-, hrest⟩ := e
      have h1 : (cs.takeWhile (· == '#')).length ≤ cs.length :=
        length_takeWhile_le_self _ _
      have h2 : 1 ≤ (cs.takeWhile (· == '#')).length := hr.1
      rw [← hrest]
      simp only [List.length_drop]
      omega
  · exact absurd e (by simp)

/-- Fuel irrelevance for `scanHeadings`: any fuel at least the input
length produces the same output. -/
theorem scanHeadings_congr :
    ∀ (f1 : Nat) {f2 : Nat} {b : Bool} {cs : List Char},
      cs.length ≤ f1 → cs.length ≤ f2 →
      scanHeadings f1 b cs = scanHeadings f2 b cs := by
  intro f1
  induction f1 with
  | zero =>
    intro f2 b cs h1 _
    have hnil : cs = [] := List.length_eq_zero.mp (Nat.le_zero.mp h1)
    subst hnil
    cases f2 <;> rfl
  | succ f ih =>
    intro f2 b cs h1 h2
    cases cs with
    | nil => cases f2 <;> rfl
    | cons c cs' =>
      cases f2 with
      | zero => simp at h2
      | succ f2' =>
        have hl1 : cs'.length ≤ f := by simpa using Nat.le_of_succ_le_succ h1
        have hl2 : cs'.length ≤ f2' := by simpa using Nat.le_of_succ_le_succ h2
        cases b with
        | false => simpa only [scanHeadings] using ih hl1 hl2
        | true =>
          simp only [scanHeadings, if_pos]
          cases htry : tryHeading (c :: cs') with
          | none => exact ih hl1 hl2
          | some pr =>
            obtain ⟨hd, rest⟩ := pr
            have hlt := tryHeading_rest_lt htry
            simp only [List.length_cons] at hlt
            exact congrArg (hd :: ·) (ih (by omega) (by omega))

/-- Fuel-independent scanner: `extractHeadings` is `scanH true`. -/
def scanH (b : Bool) (cs : List Char) : List (List Char) :=
  scanHeadings cs.length b cs

theorem extractHeadings_eq_scanH (content : List Char) :
    extractHeadings content = scanH true content := rfl

theorem scanH_nil (b : Bool) : scanH b [] = [] := rfl

theorem scanH_cons_false (c : Char) (cs : List Char) :
    scanH false (c :: cs) = scanH (isLineTerm c) cs := rfl

theorem scanH_cons_true_none {c : Char} {cs : List Char}
    (h : tryHeading (c :: cs) = none) :
    scanH true (c :: cs) = scanH (isLineTerm c) cs := by
  unfold scanH
  simp only [List.length_cons, scanHeadings, if_pos, h]

theorem scanH_cons_true_some {c : Char} {cs hd rest : List Char}
    (h : tryHeading (c :: cs) = some (hd, rest)) :
    scanH true (c :: cs) = hd :: scanH false rest := by
  unfold scanH
  simp only [List.length_cons, scanHeadings, if_pos, h]
  have hlt := tryHeading_rest_lt h
  simp only [List.length_cons] at hlt
  exact congrArg (hd :: ·) (scanHeadings_congr _ (by omega) le_rfl)

/-- With the line-start flag off, the scanner passes over
line-terminator-free text without producing anything. -/
theorem scanH_false_append {l : List Char}
    (hnt : ∀ c ∈ l, isLineTerm c = false) (rest : List Char) :
    scanH false (l ++ rest) = scanH false rest := by
  induction l with
  | nil => rfl
  | cons c l' ih =>
    rw [List.cons_append, scanH_cons_false, hnt c (by simp)]
    exact ih (fun x hx => hnt x (by simp [hx]))

theorem scanH_false_nt {l : List Char}
    (hnt : ∀ c ∈ l, isLineTerm c = false) : scanH false l = [] := by
  have h := scanH_false_append hnt []
  simpa using h

/-- On a terminator-free line followed by a line terminator, a scanner
match attempt agrees with the spec's per-line rule, provided the line is
well behaved (`goodLine`). -/
theorem tryHeading_line {L : List Char} (hnt : ∀ c ∈ L, isLineTerm c = false)
    (hg : goodLine L = true) {t : Char} (ht : isLineTerm t = true)
    (rest : List Char) :
    tryHeading (L ++ t :: rest)
      = (lineHeading L).map (fun h => (h, t :: rest)) := by
  have hhash : (L ++ t :: rest).takeWhile (· == '#') = L.takeWhile (· == '#') :=
    takeWhile_append_stop L (hash_ne_of_lineTerm ht)
  have hrle : (L.takeWhile (· == '#')).length ≤ L.length :=
    length_takeWhile_le_self _ _
  by_cases hr : 1 ≤ (L.takeWhile (· == '#')).length ∧
      (L.takeWhile (· == '#')).length ≤ 6
  · have hdropapp : (L ++ t :: rest).drop (L.takeWhile (· == '#')).length
        = L.drop (L.takeWhile (· == '#')).length ++ t :: rest :=
      List.drop_append_of_le_length hrle
    have hany : (L.drop (L.takeWhile (· == '#')).length).any
        (fun c => !isJsSpace c) = true := by
      simp only [goodLine, hr, not_true_eq_false, decide_False, Bool.false_or] at hg
      exact hg
    cases hdrop : L.drop (L.takeWhile (· == '#')).length with
    | nil => rw [hdrop] at hany; simp at hany
    | cons c0 L'' =>
      by_cases hsp : isJsSpace c0 = true
      · -- genuine heading line
        have hws : ((L.drop (L.takeWhile (· == '#')).length) ++ t :: rest).takeWhile
            isJsSpace = (L.drop (L.takeWhile (· == '#')).length).takeWhile isJsSpace :=
          takeWhile_append_any hany _
        have hwsne : (L.drop (L.takeWhile (· == '#')).length).takeWhile isJsSpace ≠ [] := by
          rw [hdrop, List.takeWhile_cons_of_pos hsp]
          simp
        have hwslen : ((L.drop (L.takeWhile (· == '#')).length).takeWhile
            isJsSpace).length ≤ (L.drop (L.takeWhile (· == '#')).length).length :=
          length_takeWhile_le_self _ _
        have hafterws : ((L.drop (L.takeWhile (· == '#')).length) ++ t :: rest).drop
              (((L.drop (L.takeWhile (· == '#')).length).takeWhile isJsSpace).length)
            = (L.drop (L.takeWhile (· == '#')).length).dropWhile isJsSpace ++ t :: rest := by
          rw [List.drop_append_of_le_length hwslen, drop_length_takeWhile]
        have hntD : ∀ c ∈ (L.drop (L.takeWhile (· == '#')).length).dropWhile isJsSpace,
            (!isLineTerm c) = true := by
          intro c hc
          have hcL : c ∈ L :=
            (List.drop_sublist _ _).subset ((List.dropWhile_sublist _).subset hc)
          simp [hnt c hcL]
        have hbody : ((L.drop (L.takeWhile (· == '#')).length).dropWhile isJsSpace
              ++ t :: rest).takeWhile (fun c => !isLineTerm c)
            = (L.drop (L.takeWhile (· == '#')).length).dropWhile isJsSpace := by
          rw [List.takeWhile_append_of_pos hntD, List.takeWhile_cons_of_neg (by simp [ht])]
          simp
        have hlh : lineHeading L
            = some (jsTrim (L.drop (L.takeWhile (· == '#')).length)) := by
          simp only [lineHeading]
          rw [if_pos ⟨hr.1, hr.2, by rw [hdrop]; simp [hsp]⟩]
        simp only [tryHeading, hhash, if_pos hr, hdropapp, hws]
        rw [if_neg hwsne]
        simp only [hafterws, hbody]
        rw [List.drop_left, hlh]
        simp [jsTrim_dropWhile]
      · -- hashes not followed by whitespace: no heading on either side
        have hws0 : ((L.drop (L.takeWhile (· == '#')).length) ++ t :: rest).takeWhile
            isJsSpace = [] := by
          rw [hdrop, List.cons_append, List.takeWhile_cons_of_neg (by simp [hsp])]
        have hlh : lineHeading L = none := by
          simp only [lineHeading]
          rw [if_neg]
          rw [hdrop]
          simp [hsp]
        simp only [tryHeading, hhash, if_pos hr, hdropapp, hws0, hlh]
        simp
  · -- no 1..6 hash marker: no heading on either side
    have hlh : lineHeading L = none := by
      simp only [lineHeading]
      rw [if_neg (by tauto)]
    simp only [tryHeading, hhash, hlh]
    rw [if_neg hr]
    rfl

/-- Same correspondence for the final line of the document (no trailing
line terminator); here no well-behavedness is needed because the
whitespace run cannot spill anywhere. -/
theorem tryHeading_lastLine {L : List Char}
    (hnt : ∀ c ∈ L, isLineTerm c = false) :
    tryHeading L = (lineHeading L).map (fun h => (h, ([] : List Char))) := by
  by_cases hr : 1 ≤ (L.takeWhile (· == '#')).length ∧
      (L.takeWhile (· == '#')).length ≤ 6
  · cases hdrop : L.drop (L.takeWhile (· == '#')).length with
    | nil =>
      have hws0 : ((L.drop (L.takeWhile (· == '#')).length)).takeWhile isJsSpace = [] := by
        rw [hdrop]; rfl
      have hlh : lineHeading L = none := by
        simp only [lineHeading]
        rw [if_neg]
        rw [hdrop]
        simp
      simp only [tryHeading, if_pos hr, hws0, hlh]
      simp
    | cons c0 L'' =>
      by_cases hsp : isJsSpace c0 = true
      · have hntD : ∀ c ∈ (L.drop (L.takeWhile (· == '#')).length).dropWhile isJsSpace,
            (!isLineTerm c) = true := by
          intro c hc
          have hcL : c ∈ L :=
            (List.drop_sublist _ _).subset ((List.dropWhile_sublist _).subset hc)
          simp [hnt c hcL]
        have hwsne : (L.drop (L.takeWhile (· == '#')).length).takeWhile isJsSpace ≠ [] := by
          rw [hdrop, List.takeWhile_cons_of_pos hsp]
          simp
        have hlh : lineHeading L
            = some (jsTrim (L.drop (L.takeWhile (· == '#')).length)) := by
          simp only [lineHeading]
          rw [if_pos ⟨hr.1, hr.2, by rw [hdrop]; simp [hsp]⟩]
        simp only [tryHeading, if_pos hr]
        rw [if_neg hwsne]
        rw [drop_length_takeWhile]
        rw [List.takeWhile_eq_self_iff.mpr (by intro x hx; simpa using hntD x hx)]
        rw [List.drop_length, hlh]
        simp [jsTrim_dropWhile]
      · have hws0 : ((L.drop (L.takeWhile (· == '#')).length)).takeWhile isJsSpace = [] := by
          rw [hdrop, List.takeWhile_cons_of_neg (by simp [hsp])]
        have hlh : lineHeading L = none := by
          simp only [lineHeading]
          rw [if_neg]
          rw [hdrop]
          simp [hsp]
        simp only [tryHeading, if_pos hr, hws0, hlh]
        simp
  · have hlh : lineHeading L = none := by
      simp only [lineHeading]
      rw [if_neg (by tauto)]
    simp only [tryHeading, hlh]
    rw [if_neg hr]
    rfl

/-- The scanner agrees with the spec's line-by-line rule on any document
all of whose lines are well behaved. -/
theorem scanH_eq_spec :
    ∀ (n : Nat) (content : List Char), content.length ≤ n →
      cleanHeadingLines content = true →
      scanH true content = extractHeadingsSpec content := by
  intro n
  induction n with
  | zero =>
    intro content hlen _
    have hnil : content = [] := List.length_eq_zero.mp (Nat.le_zero.mp hlen)
    subst hnil
    rfl
  | succ n ih =>
    intro content hlen hclean
    have hsplit : content
        = content.takeWhile (fun c => !isLineTerm c)
          ++ content.dropWhile (fun c => !isLineTerm c) :=
      (List.takeWhile_append_dropWhile _ _).symm
    have hntL : ∀ c ∈ content.takeWhile (fun c => !isLineTerm c),
        isLineTerm c = false := by
      intro c hc
      have h := List.mem_takeWhile_imp hc
      simpa using h
    cases hA : content.dropWhile (fun c => !isLineTerm c) with
    | nil =>
      have hcontent : content = content.takeWhile (fun c => !isLineTerm c) := by
        conv_lhs => rw [hsplit]
        rw [hA, List.append_nil]
      have hlines : linesOf content = [content] := by
        conv_lhs => rw [hcontent]
        rw [linesOf_nt hntL]
        rw [← hcontent]
      have hgood : goodLine content = true := by
        have h := hclean
        unfold cleanHeadingLines at h
        rw [hlines] at h
        simpa using h
      have hntC : ∀ c ∈ content, isLineTerm c = false := by
        intro c hc
        exact hntL c (hcontent ▸ hc)
      have hM := tryHeading_lastLine hntC
      cases hlh : lineHeading content with
      | none =>
        have htry : tryHeading content = none := by rw [hM, hlh]; rfl
        have hscan : scanH true content = [] := by
          cases hcc : content with
          | nil => rfl
          | cons c cs =>
            rw [scanH_cons_true_none (hcc ▸ htry)]
            rw [hntC c (by rw [hcc]; simp)]
            exact scanH_false_nt (fun x hx => hntC x (by rw [hcc]; simp [hx]))
        rw [hscan]
        unfold extractHeadingsSpec
        rw [hlines]
        simp [hlh]
      | some h =>
        have htry : tryHeading content = some (h, []) := by rw [hM, hlh]; rfl
        have hne : content ≠ [] := by
          intro hc
          rw [hc] at hlh
          simp [lineHeading] at hlh
        obtain ⟨c, cs, hcc⟩ := List.exists_cons_of_ne_nil hne
        have hscan : scanH true content = [h] := by
          rw [hcc, scanH_cons_true_some (hcc ▸ htry)]
          rfl
        rw [hscan]
        unfold extractHeadingsSpec
        rw [hlines]
        simp [hlh]
    | cons t rest =>
      have ht : isLineTerm t = true := by
        have h := head_dropWhile_false hA
        simpa using h
      have hcontent : content
          = content.takeWhile (fun c => !isLineTerm c) ++ t :: rest := by
        conv_lhs => rw [hsplit]
        rw [hA]
      have hlines : linesOf content
          = content.takeWhile (fun c => !isLineTerm c) :: linesOf rest := by
        conv_lhs => rw [hcontent]
        exact linesOf_append_term hntL ht rest
      have hgood : goodLine (content.takeWhile (fun c => !isLineTerm c)) = true := by
        have h := hclean
        unfold cleanHeadingLines at h
        rw [hlines] at h
        simp only [List.all_cons, Bool.and_eq_true] at h
        exact h.1
      have hcleanrest : cleanHeadingLines rest = true := by
        have h := hclean
        unfold cleanHeadingLines at h
        rw [hlines] at h
        simp only [List.all_cons, Bool.and_eq_true] at h
        exact h.2
      have hrestlen : rest.length ≤ n := by
        have h := hlen
        rw [hcontent] at h
        simp only [List.length_append, List.length_cons] at h
        omega
      have hIH := ih rest hrestlen hcleanrest
      have hM := tryHeading_line hntL hgood ht rest
      cases hlh : lineHeading (content.takeWhile (fun c => !isLineTerm c)) with
      | none =>
        have htry : tryHeading (content.takeWhile (fun c => !isLineTerm c)
            ++ t :: rest) = none := by rw [hM, hlh]; rfl
        have hwalk : scanH true content = scanH true rest := by
          rw [hcontent]
          cases hL : content.takeWhile (fun c => !isLineTerm c) with
          | nil =>
            rw [List.nil_append]
            rw [scanH_cons_true_none (by rw [hL] at htry; simpa using htry)]
            rw [ht]
          | cons c L' =>
            rw [List.cons_append]
            rw [scanH_cons_true_none (by rw [hL] at htry; simpa using htry)]
            rw [hntL c (by rw [hL]; simp)]
            rw [scanH_false_append (fun x hx => hntL x (by rw [hL]; simp [hx]))]
            rw [scanH_cons_false, ht]
        rw [hwalk, hIH]
        unfold extractHeadingsSpec
        rw [hlines]
        simp [hlh]
      | some h =>
        have htry : tryHeading (content.takeWhile (fun c => !isLineTerm c)
            ++ t :: rest) = some (h, t :: rest) := by rw [hM, hlh]; rfl
        have hwalk : scanH true content = h :: scanH true rest := by
          rw [hcontent]
          cases hL : content.takeWhile (fun c => !isLineTerm c) with
          | nil =>
            rw [List.nil_append]
            rw [scanH_cons_true_some (by rw [hL] at htry; simpa using htry)]
            rw [scanH_cons_false, ht]
          | cons c L' =>
            rw [List.cons_append]
            rw [scanH_cons_true_some (by rw [hL] at htry; simpa using htry)]
            rw [scanH_cons_false, ht]
        rw [hwalk, hIH]
        unfold extractHeadingsSpec
        rw [hlines]
        simp [hlh]

/-- C6 (amended): on content in which every 1-to-6-hash marker line has a
non-whitespace character after its hashes, `extractHeadings` returns
exactly one entry per line that starts with 1–6 `#` characters followed by
at least one whitespace character — the entry being the remainder of that
line trimmed — in document order, and every other line contributes
nothing. -/
theorem C6_extract_line_model (content : List Char)
    (hclean : cleanHeadingLines content = true) :
    extractHeadings content = extractHeadingsSpec content :=
  scanH_eq_spec content.length content le_rfl hclean

/-- C6 counterexample: on "#\nx" the regex's `\s+` consumes the newline,
so the scanner captures "x" from the next line, while the claim's
line-by-line rule yields no heading at all. -/
theorem C6_counterexample :
    extractHeadings "#\nx".data = ["x".data]
      ∧ extractHeadingsSpec "#\nx".data = []
      ∧ extractHeadings "#\nx".data ≠ extractHeadingsSpec "#\nx".data := by
  refine ⟨by decide, by decide, by decide⟩

/-- C6 witness: a well-behaved document where the amended claim applies and
produces the spec's example output. -/
theorem C6_extract_line_model_witness :
    cleanHeadingLines "# H1\nplain text\n## H2".data = true
      ∧ extractHeadings "# H1\nplain text\n## H2".data
          = ["H1".data, "H2".data] := by
  refine ⟨by decide, ?_⟩
  rw [C6_extract_line_model _ (by decide)]
  decide

/-! The in-file link rewriter from `onload` in `main.ts`.  For each
`HeadingChange` the code builds
`new RegExp("\\[\\[#" + escapeForRegex(old) + "(\\|[^\\]]+)?\\]\\]", "g")`
and `new RegExp("\\(\\#" + escapeForRegex(old) + "\\)", "g")` and applies
`String.replace` with both.  Because `escapeForRegex` escapes every regex
metacharacter, the escaped old heading denotes itself literally, so the
matchers below treat `old` as a literal character list. -/

/-- `escapeForRegex` from `main.ts`: backslash-escape every regex
metacharacter.  (Recorded for reference: it justifies treating the old
heading as a literal in the matchers.) -/
def escapeForRegex (s : List Char) : List Char :=
  s.flatMap (fun c =>
    if c ∈ ['.', '*', '+', '?', '^', '$', '{', '}', '(', ')', '|', '[', ']', '\\']
    then ['\\', c] else [c])

/-- Literal prefix test. -/
def hasPfx : List Char → List Char → Bool
  | [], _ => true
  | _ :: _, [] => false
  | p :: ps, c :: cs => p == c && hasPfx ps cs

theorem hasPfx_append (a t : List Char) : hasPfx a (a ++ t) = true := by
  induction a with
  | nil => rfl
  | cons x xs ih => simp [hasPfx, ih]

theorem hasPfx_exists {p l : List Char} (h : hasPfx p l = true) :
    ∃ t, l = p ++ t := by
  induction p generalizing l with
  | nil => exact ⟨l, rfl⟩
  | cons x xs ih =>
    cases l with
    | nil => simp [hasPfx] at h
    | cons c cs =>
      simp only [hasPfx, Bool.and_eq_true, beq_iff_eq] at h
      obtain ⟨rfl, h2⟩ := h
      obtain ⟨t, rfl⟩ := ih h2
      exact ⟨t, rfl⟩

theorem hasPfx_length_le {p l : List Char} (h : hasPfx p l = true) :
    p.length ≤ l.length := by
  obtain ⟨t, rfl⟩ := hasPfx_exists h
  simp

theorem hasPfx_eq_of_length {p l : List Char} (h : hasPfx p l = true)
    (hl : l.length ≤ p.length) : p = l := by
  obtain ⟨t, rfl⟩ := hasPfx_exists h
  have : t = [] := by
    have := List.length_append p t ▸ hl
    exact List.eq_nil_of_length_eq_zero (by omega)
  simp [this]

theorem hasPfx_false_of_lt {p l : List Char} (h : l.length < p.length) :
    hasPfx p l = false := by
  by_contra hc
  have := hasPfx_length_le (by simpa using Bool.not_eq_false _ ▸ hc)
  omega

/-- One match attempt, at the current position, of the wiki-link rename
pattern `\[\[#OLD(\|[^\]]+)?\]\]` (alias group with `+`: at least one
non-`]` character after the pipe).  Returns the captured alias part
(pipe included), if any, and the input remaining after the match.  The
case analysis records the regex backtracking outcome: when the optional
alias group cannot complete, no other parse exists. -/
def tryWikiRename (old cs : List Char) : Option (Option (List Char) × List Char) :=
  if hasPfx ('[' :: '[' :: '#' :: old) cs then
    match cs.drop (old.length + 3) with
    | [] => none
    | c :: r1 =>
      if c = '|' then
        let run := r1.takeWhile (fun c => !(c == ']'))
        if run = [] then none
        else if hasPfx [']', ']'] (r1.drop run.length) then
          some (some ('|' :: run), (r1.drop run.length).drop 2)
        else none
      else if hasPfx [']', ']'] (c :: r1) then some (none, (c :: r1).drop 2)
      else none
  else none

/-- Global replacement pass of the wiki-link rename regex; the replacement
is produced by a callback, `[[#NEW${aliasPart ?? ""}]]`, so no `$`
substitution applies. -/
def wikiRenameAux (old new : List Char) : Nat → List Char → List Char
  | _, [] => []
  | 0, cs => cs
  | fuel + 1, c :: cs =>
    match tryWikiRename old (c :: cs) with
    | some (al, rest) =>
      '[' :: '[' :: '#' ::
        (new ++ (al.getD []) ++ (']' :: ']' :: wikiRenameAux old new fuel rest))
    | none => c :: wikiRenameAux old new fuel cs

def wikiRenameAll (old new content : List Char) : List Char :=
  wikiRenameAux old new content.length content

/-- JS `GetSubstitution` for a string replacement template, specialised to
patterns with at most one capture group (the only shapes occurring in the
source): `$$`, `$&`, `` $` ``, `$'` and `$1`/`$01` (when the pattern has a
group) are interpreted; any other `$` sequence is copied literally.  An
unmatched optional group substitutes the empty string. -/
def substTemplateAux (ngroups : Nat) (matched before after : List Char)
    (cap1 : Option (List Char)) : Nat → List Char → List Char
  | _, [] => []
  | 0, t => t
  | fuel + 1, c :: rest =>
    if c = '$' then
      match rest with
      | [] => ['$']
      | c2 :: r2 =>
        if c2 = '$' then
          '$' :: substTemplateAux ngroups matched before after cap1 fuel r2
        else if c2 = '&' then
          matched ++ substTemplateAux ngroups matched before after cap1 fuel r2
        else if c2 = '`' then
          before ++ substTemplateAux ngroups matched before after cap1 fuel r2
        else if c2 = '\'' then
          after ++ substTemplateAux ngroups matched before after cap1 fuel r2
        else if c2.isDigit then
          match r2 with
          | c3 :: r3 =>
            if c3.isDigit ∧ 1 ≤ (c2.toNat - 48) * 10 + (c3.toNat - 48)
                ∧ (c2.toNat - 48) * 10 + (c3.toNat - 48) ≤ ngroups then
              (cap1.getD []) ++ substTemplateAux ngroups matched before after cap1 fuel r3
            else if 1 ≤ c2.toNat - 48 ∧ c2.toNat - 48 ≤ ngroups then
              (cap1.getD []) ++ substTemplateAux ngroups matched before after cap1 fuel r2
            else '$' :: c2 :: substTemplateAux ngroups matched before after cap1 fuel r2
          | [] =>
            if 1 ≤ c2.toNat - 48 ∧ c2.toNat - 48 ≤ ngroups then cap1.getD []
            else ['$', c2]
        else '$' :: c2 :: substTemplateAux ngroups matched before after cap1 fuel r2
    else c :: substTemplateAux ngroups matched before after cap1 fuel rest

def substTemplate (ngroups : Nat) (matched before after : List Char)
    (cap1 : Option (List Char)) (tpl : List Char) : List Char :=
  substTemplateAux ngroups matched before after cap1 tpl.length tpl

/-- The markdown-anchor pattern `\(\#OLD\)` as a literal. -/
def mdPat (old : List Char) : List Char := '(' :: '#' :: (old ++ [')'])

/-- Global replacement pass of the markdown-anchor rename regex with the
string template `(#NEW)`; `before` (reversed) tracks the already-consumed
part of the original input for `` $` ``/`$'`. -/
def mdRenameAux (old new : List Char) : Nat → List Char → List Char → List Char
  | _, _, [] => []
  | 0, _, cs => cs
  | fuel + 1, br, c :: cs =>
    if hasPfx (mdPat old) (c :: cs) then
      substTemplate 0 (mdPat old) br.reverse ((c :: cs).drop (mdPat old).length)
          none (mdPat new)
        ++ mdRenameAux old new fuel ((mdPat old).reverse ++ br)
            ((c :: cs).drop (mdPat old).length)
    else c :: mdRenameAux old new fuel (c :: br) cs

def mdRenameAll (old new content : List Char) : List Char :=
  mdRenameAux old new content.length [] content

/-- One iteration of the `onload` rewrite loop body: the wiki-link pass
followed by the markdown-anchor pass, for a single `HeadingChange`. -/
def applyChange (old new content : List Char) : List Char :=
  mdRenameAll old new (wikiRenameAll old new content)

/-- The full in-file rewrite: apply every change sequentially, in list
order, as the `for (const {oldHeading, newHeading} of changes)` loop does. -/
def rewriteChanges (changes : List HeadingChange) (content : List Char) :
    List Char :=
  changes.foldl (fun c ch => applyChange ch.oldHeading ch.newHeading c) content

/-! Step and no-match lemmas for the two rewrite passes. -/

theorem tryWikiRename_nil (old : List Char) : tryWikiRename old [] = none := by
  have h : hasPfx ('[' :: '[' :: '#' :: old) [] = false := rfl
  simp [tryWikiRename, h]

theorem tryWikiRename_rest_lt {old cs : List Char} {al : Option (List Char)}
    {rest : List Char} (e : tryWikiRename old cs = some (al, rest)) :
    rest.length < cs.length := by
  simp only [tryWikiRename] at e
  split at e
  · next hpfx =>
    have hlen : old.length + 3 ≤ cs.length := by
      have h := hasPfx_length_le hpfx
      simp only [List.length_cons] at h
      omega
    split at e
    · exact absurd e (by simp)
    · next c r1 heq =>
      have hr1 : r1.length + 1 = cs.length - (old.length + 3) := by
        have h := congrArg List.length heq
        simp only [List.length_drop, List.length_cons] at h
        omega
      split at e
      · split at e
        · exact absurd e (by simp)
        · split at e
          · simp only [Option.some.injEq, Prod.mk.injEq] at e
            obtain ⟨-, hrest⟩ := e
            rw [← hrest]
            simp only [List.length_drop]
            omega
          · exact absurd e (by simp)
      · split at e
        · simp only [Option.some.injEq, Prod.mk.injEq] at e
          obtain ⟨-, hrest⟩ := e
          rw [← hrest]
          simp only [List.length_drop, List.length_cons]
          omega
        · exact absurd e (by simp)
  · exact absurd e (by simp)

theorem wikiRenameAux_congr {old new : List Char} :
    ∀ (f1 f2 : Nat) (cs : List Char),
      cs.length ≤ f1 → cs.length ≤ f2 →
      wikiRenameAux old new f1 cs = wikiRenameAux old new f2 cs := by
  intro f1
  induction f1 with
  | zero =>
    intro f2 cs h1 _
    have hnil : cs = [] := List.length_eq_zero.mp (Nat.le_zero.mp h1)
    subst hnil
    cases f2 <;> rfl
  | succ f ih =>
    intro f2 cs h1 h2
    cases cs with
    | nil => cases f2 <;> rfl
    | cons c cs' =>
      cases f2 with
      | zero => simp at h2
      | succ f2' =>
        have hl1 : cs'.length ≤ f := by simpa using Nat.le_of_succ_le_succ h1
        have hl2 : cs'.length ≤ f2' := by simpa using Nat.le_of_succ_le_succ h2
        cases htry : tryWikiRename old (c :: cs') with
        | none =>
          simp only [wikiRenameAux, htry]
          rw [ih f2' cs' hl1 hl2]
        | some pr =>
          obtain ⟨al, rest⟩ := pr
          have hlt := tryWikiRename_rest_lt htry
          simp only [List.length_cons] at hlt
          simp only [wikiRenameAux, htry]
          rw [ih f2' rest (by omega) (by omega)]

theorem wikiRenameAll_cons_none {old new : List Char} {c : Char} {cs : List Char}
    (h : tryWikiRename old (c :: cs) = none) :
    wikiRenameAll old new (c :: cs) = c :: wikiRenameAll old new cs := by
  unfold wikiRenameAll
  simp only [List.length_cons, wikiRenameAux, h]

theorem wikiRenameAll_cons_some {old new : List Char} {c : Char}
    {cs : List Char} {al : Option (List Char)} {rest : List Char}
    (h : tryWikiRename old (c :: cs) = some (al, rest)) :
    wikiRenameAll old new (c :: cs)
      = '[' :: '[' :: '#' ::
          (new ++ (al.getD []) ++ (']' :: ']' :: wikiRenameAll old new rest)) := by
  unfold wikiRenameAll
  simp only [List.length_cons, wikiRenameAux, h]
  have hlt := tryWikiRename_rest_lt h
  simp only [List.length_cons] at hlt
  rw [wikiRenameAux_congr cs.length rest.length rest (by omega) le_rfl]

theorem wikiRenameAux_id {old new : List Char} :
    ∀ (fuel : Nat) {cs : List Char},
      (∀ i, tryWikiRename old (cs.drop i) = none) →
      wikiRenameAux old new fuel cs = cs := by
  intro fuel
  induction fuel with
  | zero => intro cs _; cases cs <;> rfl
  | succ f ih =>
    intro cs h
    cases cs with
    | nil => rfl
    | cons c cs' =>
      have h0 := h 0
      simp only [List.drop_zero] at h0
      simp only [wikiRenameAux, h0]
      exact congrArg (c :: ·) (ih (fun i => by
        have hi := h (i + 1)
        simpa using hi))

theorem mdRenameAux_id {old new : List Char} :
    ∀ (fuel : Nat) {br cs : List Char},
      (∀ i, hasPfx (mdPat old) (cs.drop i) = false) →
      mdRenameAux old new fuel br cs = cs := by
  intro fuel
  induction fuel with
  | zero => intro br cs _; cases cs <;> rfl
  | succ f ih =>
    intro br cs h
    cases cs with
    | nil => rfl
    | cons c cs' =>
      have h0 := h 0
      simp only [List.drop_zero] at h0
      simp only [mdRenameAux, h0]
      simp only [Bool.false_eq_true, if_false]
      exact congrArg (c :: ·) (ih (fun i => by
        have hi := h (i + 1)
        simpa using hi))

/-- Decidable occurrence test for the wiki-link rename pattern. -/
def hasWikiRename (old : List Char) : List Char → Bool
  | [] => false
  | c :: cs => (tryWikiRename old (c :: cs)).isSome || hasWikiRename old cs

/-- Decidable occurrence test for the markdown-anchor rename pattern. -/
def hasMdRename (old : List Char) : List Char → Bool
  | [] => false
  | c :: cs => hasPfx (mdPat old) (c :: cs) || hasMdRename old cs

theorem no_wiki_of_scan_false {old : List Char} :
    ∀ {cs : List Char}, hasWikiRename old cs = false →
      ∀ i, tryWikiRename old (cs.drop i) = none := by
  intro cs
  induction cs with
  | nil => intro _ i; cases i <;> exact tryWikiRename_nil old
  | cons c cs' ih =>
    intro h i
    simp only [hasWikiRename, Bool.or_eq_false_iff] at h
    cases i with
    | zero =>
      simp only [List.drop_zero]
      exact Option.not_isSome_iff_eq_none.mp (by simp [h.1])
    | succ i' =>
      simpa using ih h.2 i'

theorem no_md_of_scan_false {old : List Char} :
    ∀ {cs : List Char}, hasMdRename old cs = false →
      ∀ i, hasPfx (mdPat old) (cs.drop i) = false := by
  intro cs
  induction cs with
  | nil => intro _ i; cases i <;> rfl
  | cons c cs' ih =>
    intro h i
    simp only [hasMdRename, Bool.or_eq_false_iff] at h
    cases i with
    | zero => simpa using h.1
    | succ i' => simpa using ih h.2 i'

/-- A change with no remaining pattern occurrence leaves the content
untouched. -/
theorem applyChange_id {old new content : List Char}
    (hw : hasWikiRename old content = false)
    (hm : hasMdRename old content = false) :
    applyChange old new content = content := by
  unfold applyChange wikiRenameAll
  rw [wikiRenameAux_id _ (no_wiki_of_scan_false hw)]
  unfold mdRenameAll
  rw [mdRenameAux_id _ (no_md_of_scan_false hm)]

theorem rewriteChanges_id {r : List Char} :
    ∀ {cs : List HeadingChange},
      (∀ ch ∈ cs, hasWikiRename ch.oldHeading r = false ∧
        hasMdRename ch.oldHeading r = false) →
      rewriteChanges cs r = r := by
  intro cs
  induction cs with
  | nil => intro _; rfl
  | cons ch cs' ih =>
    intro h
    unfold rewriteChanges
    simp only [List.foldl_cons]
    rw [applyChange_id (h ch (by simp)).1 (h ch (by simp)).2]
    exact ih (fun x hx => h x (by simp [hx]))

/-- C2: the rewriter matches a heading containing regex metacharacters
literally (the escaping in `escapeForRegex` covers every metacharacter):
rewriting `[[#a.b]]` under {old:"a.b", new:"c"} yields `[[#c]]`, and
`[[#aXb]]` — where the `.` position holds a different character — is left
unchanged by that same change. -/
theorem C2_metachar_literal :
    rewriteChanges [HeadingChange.mk "a.b".data "c".data] "[[#a.b]]".data
        = "[[#c]]".data
      ∧ rewriteChanges [HeadingChange.mk "a.b".data "c".data] "[[#aXb]]".data
        = "[[#aXb]]".data := by
  constructor
  · decide
  · decide

/-- C5 counterexample: with the change list [{B→C}, {A→B}] (as the
positional fallback of `getHeadingChanges` can produce), rewriting
`[[#A]]` once gives `[[#B]]`, and applying the same list a second time
gives `[[#C]]`: the rewrite is not idempotent. -/
theorem C5_counterexample :
    rewriteChanges
        [HeadingChange.mk "B".data "C".data, HeadingChange.mk "A".data "B".data]
        (rewriteChanges
          [HeadingChange.mk "B".data "C".data, HeadingChange.mk "A".data "B".data]
          "[[#A]]".data)
      ≠ rewriteChanges
          [HeadingChange.mk "B".data "C".data, HeadingChange.mk "A".data "B".data]
          "[[#A]]".data := by
  decide

/-- C5 (amended): the in-file rewrite is idempotent on a change list
provided that, after the first application, no change's old heading still
matches anywhere (neither as a wiki link nor as a markdown anchor) in the
rewritten content — which holds in particular whenever no change's new
heading reintroduces an earlier change's old pattern. -/
theorem C5_conditional_idempotent (changes : List HeadingChange)
    (content : List Char)
    (h : ∀ ch ∈ changes,
        hasWikiRename ch.oldHeading (rewriteChanges changes content) = false ∧
        hasMdRename ch.oldHeading (rewriteChanges changes content) = false) :
    rewriteChanges changes (rewriteChanges changes content)
      = rewriteChanges changes content :=
  rewriteChanges_id h

/-- C5 witness: a single change applied to a document containing both link
forms; after the first rewrite the old heading no longer occurs, so the
second application is the identity. -/
theorem C5_conditional_idempotent_witness :
    (∀ ch ∈ [HeadingChange.mk "A".data "B".data],
        hasWikiRename ch.oldHeading
          (rewriteChanges [HeadingChange.mk "A".data "B".data]
            "[[#A]] and (#A)".data) = false ∧
        hasMdRename ch.oldHeading
          (rewriteChanges [HeadingChange.mk "A".data "B".data]
            "[[#A]] and (#A)".data) = false)
      ∧ rewriteChanges [HeadingChange.mk "A".data "B".data]
          (rewriteChanges [HeadingChange.mk "A".data "B".data]
            "[[#A]] and (#A)".data)
        = rewriteChanges [HeadingChange.mk "A".data "B".data]
            "[[#A]] and (#A)".data := by
  have hside : ∀ ch ∈ [HeadingChange.mk "A".data "B".data],
      hasWikiRename ch.oldHeading
        (rewriteChanges [HeadingChange.mk "A".data "B".data]
          "[[#A]] and (#A)".data) = false ∧
      hasMdRename ch.oldHeading
        (rewriteChanges [HeadingChange.mk "A".data "B".data]
          "[[#A]] and (#A)".data) = false := by
    intro ch hch
    rw [List.mem_singleton] at hch
    subst hch
    exact ⟨by decide, by decide⟩
  exact ⟨hside, C5_conditional_idempotent _ _ hside⟩

/-! Claim C10: a wiki link with an empty alias, `[[#old|]]`, is not matched
by the rename pattern (whose alias group requires at least one non-`]`
character), so the rewrite leaves it untouched, while `[[#old]]` is
rewritten. -/

theorem patLen3 (old : List Char) : ('[' :: '[' :: '#' :: old).length = old.length + 3 := by
  simp only [List.length_cons]

theorem tryWikiRename_drop_emptyAlias (old : List Char) :
    ∀ i, tryWikiRename old (('[' :: '[' :: '#' :: (old ++ ['|', ']', ']'])).drop i)
      = none := by
  have hc : ('[' :: '[' :: '#' :: (old ++ ['|', ']', ']']))
      = ('[' :: '[' :: '#' :: old) ++ ['|', ']', ']'] := by simp
  intro i
  match i with
  | 0 =>
    simp only [List.drop_zero]
    have hdrop : (('[' :: '[' :: '#' :: old) ++ ['|', ']', ']']).drop (old.length + 3)
        = ['|', ']', ']'] := List.drop_left' (patLen3 old)
    rw [hc]
    simp [tryWikiRename, hasPfx_append, hdrop]
  | 1 =>
    have h1 : (('[' : Char) == '#') = false := by decide
    simp [tryWikiRename, hasPfx, h1]
  | 2 =>
    have h1 : (('[' : Char) == '#') = false := by decide
    simp [tryWikiRename, hasPfx, h1]
  | 3 =>
    have hp : hasPfx ('[' :: '[' :: '#' :: old) (old ++ ['|', ']', ']']) = false := by
      by_cases hp : hasPfx ('[' :: '[' :: '#' :: old) (old ++ ['|', ']', ']']) = true
      · exfalso
        have heq := hasPfx_eq_of_length hp (by simp [patLen3])
        have hcount := congrArg (fun l => l.count '#') heq
        simp only [List.count_cons, List.count_append] at hcount
        have e1 : (('[' : Char) == '#') = false := by decide
        have e2 : (('#' : Char) == '#') = true := by decide
        have e3 : (('|' : Char) == '#') = false := by decide
        have e4 : ((']' : Char) == '#') = false := by decide
        simp [e1, e2, e3, e4, List.count_nil] at hcount
      · simpa using hp
    simp [tryWikiRename, hp]
  | n + 4 =>
    have hlen : (((old ++ ['|', ']', ']'])).drop (n + 1)).length
        < ('[' :: '[' :: '#' :: old).length := by
      simp only [List.length_drop, List.length_cons, List.length_append]
      simp only [List.length_cons, List.length_nil]
      omega
    simp only [List.drop_succ_cons]
    simp [tryWikiRename, hasPfx_false_of_lt hlen]

theorem mdPat_drop_emptyAlias (old : List Char) :
    ∀ i, hasPfx (mdPat old) (('[' :: '[' :: '#' :: (old ++ ['|', ']', ']'])).drop i)
      = false := by
  intro i
  match i with
  | 0 =>
    have h1 : (('(' : Char) == '[') = false := by decide
    simp [mdPat, hasPfx, h1]
  | 1 =>
    have h1 : (('(' : Char) == '[') = false := by decide
    simp [mdPat, hasPfx, h1]
  | 2 =>
    have h1 : (('(' : Char) == '#') = false := by decide
    simp [mdPat, hasPfx, h1]
  | 3 =>
    by_cases hp : hasPfx (mdPat old) (old ++ ['|', ']', ']']) = true
    · exfalso
      have heq := hasPfx_eq_of_length hp (by simp [mdPat])
      have hcount := congrArg (fun l => l.count '(') heq
      simp only [mdPat, List.count_cons, List.count_append] at hcount
      have e1 : (('(' : Char) == '(') = true := by decide
      have e2 : (('#' : Char) == '(') = false := by decide
      have e3 : ((')' : Char) == '(') = false := by decide
      have e4 : (('|' : Char) == '(') = false := by decide
      have e5 : ((']' : Char) == '(') = false := by decide
      simp [e1, e2, e3, e4, e5, List.count_nil] at hcount
    · simpa using hp
  | n + 4 =>
    have hlen : (((old ++ ['|', ']', ']'])).drop (n + 1)).length
        < (mdPat old).length := by
      simp only [mdPat, List.length_drop, List.length_cons, List.length_append]
      simp only [List.length_cons, List.length_nil]
      omega
    simp only [List.drop_succ_cons]
    exact hasPfx_false_of_lt hlen

/-- C10: for every heading change {old, new}, the empty-alias wiki link
`[[#old|]]` is not matched by the rewrite's wiki-link pattern (its optional
alias group requires at least one non-`]` character after the pipe), so the
in-file rewrite leaves it character for character unchanged, while the same
link without the trailing pipe, `[[#old]]`, is rewritten to `[[#new]]`. -/
theorem C10_empty_alias_unmatched (old new : List Char) :
    wikiRenameAll old new ('[' :: '[' :: '#' :: (old ++ ['|', ']', ']']))
        = '[' :: '[' :: '#' :: (old ++ ['|', ']', ']'])
      ∧ rewriteChanges [HeadingChange.mk old new]
          ('[' :: '[' :: '#' :: (old ++ ['|', ']', ']']))
        = '[' :: '[' :: '#' :: (old ++ ['|', ']', ']'])
      ∧ wikiRenameAll old new ('[' :: '[' :: '#' :: (old ++ [']', ']']))
        = '[' :: '[' :: '#' :: (new ++ [']', ']']) := by
  refine ⟨?_, ?_, ?_⟩
  · exact wikiRenameAux_id _ (tryWikiRename_drop_emptyAlias old)
  · show applyChange old new _ = _
    unfold applyChange wikiRenameAll mdRenameAll
    rw [wikiRenameAux_id _ (tryWikiRename_drop_emptyAlias old)]
    rw [mdRenameAux_id _ (mdPat_drop_emptyAlias old)]
  · have htry : tryWikiRename old ('[' :: '[' :: '#' :: (old ++ [']', ']']))
        = some (none, []) := by
      have hshape : ('[' :: '[' :: '#' :: (old ++ [']', ']']))
          = ('[' :: '[' :: '#' :: old) ++ [']', ']'] := by simp
      have hp : hasPfx ('[' :: '[' :: '#' :: old)
          ('[' :: '[' :: '#' :: (old ++ [']', ']'])) = true := by
        rw [hshape]; exact hasPfx_append _ _
      have hdrop : (('[' :: '[' :: '#' :: (old ++ [']', ']']))).drop (old.length + 3)
          = [']', ']'] := by
        rw [hshape]; exact List.drop_left' (patLen3 old)
      have hbr : hasPfx [']', ']'] [']', ']'] = true := by decide
      simp [tryWikiRename, hp, hdrop, hbr]
    rw [wikiRenameAll_cons_some htry]
    have hnil : wikiRenameAll old new [] = [] := rfl
    rw [hnil]
    simp

/-! Claim C3: alias preservation under the wiki-link rewrite. -/

/-- A wiki link `[[#old|alias]]` with a nonempty, `]`-free alias matches
the rename pattern with the alias (pipe included) as the captured group,
consuming the whole link. -/
theorem tryWikiRename_alias (old : List Char) {al : List Char} (hne : al ≠ [])
    (hnb : ∀ c ∈ al, (c == ']') = false) (t : List Char) :
    tryWikiRename old (('[' :: '[' :: '#' :: old) ++ '|' :: (al ++ ']' :: ']' :: t))
      = some (some ('|' :: al), t) := by
  have hp : hasPfx ('[' :: '[' :: '#' :: old)
      (('[' :: '[' :: '#' :: old) ++ '|' :: (al ++ ']' :: ']' :: t)) = true :=
    hasPfx_append _ _
  have hdrop : ((('[' :: '[' :: '#' :: old) ++ '|' :: (al ++ ']' :: ']' :: t))).drop
      (old.length + 3) = '|' :: (al ++ ']' :: ']' :: t) :=
    List.drop_left' (patLen3 old)
  have hrun : (al ++ ']' :: ']' :: t).takeWhile (fun c => !(c == ']')) = al := by
    rw [takeWhile_append_stop al (by decide)]
    exact List.takeWhile_eq_self_iff.mpr (fun x hx => by simp [hnb x hx])
  have hdrop2 : (al ++ ']' :: ']' :: t).drop al.length = ']' :: ']' :: t :=
    List.drop_left al _
  have hbr : hasPfx [']', ']'] (']' :: ']' :: t) = true := by simp [hasPfx]
  simp only [List.cons_append] at hp hdrop
  simp [tryWikiRename, hp, hdrop, hrun, hne, hdrop2, hbr]

/-- C3 (amended): the rewrite replaces `[[#old|alias]]` by
`[[#new|alias]]`, preserving a nonempty `]`-free alias verbatim, provided
the markdown-anchor pattern `(#old)` does not occur in the rewritten link
text (otherwise the subsequent markdown pass alters it). -/
theorem C3_alias_preserved (old new al : List Char) (hne : al ≠ [])
    (hnb : ∀ c ∈ al, (c == ']') = false)
    (hmd : hasMdRename old
        ('[' :: '[' :: '#' :: (new ++ '|' :: (al ++ [']', ']']))) = false) :
    rewriteChanges [HeadingChange.mk old new]
        ('[' :: '[' :: '#' :: (old ++ '|' :: (al ++ [']', ']'])))
      = '[' :: '[' :: '#' :: (new ++ '|' :: (al ++ [']', ']'])) := by
  show applyChange old new _ = _
  unfold applyChange
  have hshape : ('[' :: '[' :: '#' :: (old ++ '|' :: (al ++ [']', ']'])))
      = ('[' :: '[' :: '#' :: old) ++ '|' :: (al ++ ']' :: ']' :: []) := by simp
  have htry : tryWikiRename old
      ('[' :: '[' :: '#' :: (old ++ '|' :: (al ++ [']', ']'])))
      = some (some ('|' :: al), []) := by
    rw [hshape]
    exact tryWikiRename_alias old hne hnb []
  have hwiki : wikiRenameAll old new
      ('[' :: '[' :: '#' :: (old ++ '|' :: (al ++ [']', ']'])))
      = '[' :: '[' :: '#' :: (new ++ '|' :: (al ++ [']', ']'])) := by
    rw [wikiRenameAll_cons_some htry]
    have hnil : wikiRenameAll old new [] = [] := rfl
    rw [hnil]
    simp
  rw [hwiki]
  unfold mdRenameAll
  rw [mdRenameAux_id _ (no_md_of_scan_false hmd)]

/-- C3 counterexample: when the alias itself contains the markdown-anchor
text of the old heading, the markdown pass rewrites inside the preserved
alias: `rewrite("[[#O|(#O)]]", [{old:"O", new:"N"}])` yields
`"[[#N|(#N)]]"`, not `"[[#N|(#O)]]"`. -/
theorem C3_counterexample :
    rewriteChanges [HeadingChange.mk "O".data "N".data] "[[#O|(#O)]]".data
        = "[[#N|(#N)]]".data
      ∧ rewriteChanges [HeadingChange.mk "O".data "N".data] "[[#O|(#O)]]".data
        ≠ "[[#N|(#O)]]".data := by
  exact ⟨by decide, by decide⟩

/-- C3 witness: the claim's instance `[[#Old|Alias]]` with change
{Old→New} becomes `[[#New|Alias]]`. -/
theorem C3_alias_preserved_witness :
    rewriteChanges [HeadingChange.mk "Old".data "New".data]
        ('[' :: '[' :: '#' :: ("Old".data ++ '|' :: ("Alias".data ++ [']', ']'])))
      = '[' :: '[' :: '#' :: ("New".data ++ '|' :: ("Alias".data ++ [']', ']'])) := by
  exact C3_alias_preserved "Old".data "New".data "Alias".data (by decide)
    (by decide) (by decide)

/-! Claim C4: `replaceHeadingLink` from the extended source variant.  The
pattern is `\[\[#OLD(\|[^\]]*)?\]\]` (internal) or
`\[\[BASENAME#OLD(\|[^\]]*)?\]\]` (cross-file) with the `g` flag, and the
replacement is the string template `[[#NEW$1]]` / `[[BASENAME#NEW$1]]`
(so `$1` substitution applies). -/

/-- One match attempt of the repair pattern: a literal prefix, an optional
alias group `(\|[^\]]*)?` (star: possibly empty), then `]]`.  Returns the
captured group (pipe included) when it participated, the matched text and
the remaining input. -/
def tryRepair (pfx cs : List Char) :
    Option (Option (List Char) × List Char × List Char) :=
  if hasPfx pfx cs then
    match cs.drop pfx.length with
    | [] => none
    | c :: r1 =>
      if c = '|' then
        let run := r1.takeWhile (fun c => !(c == ']'))
        if hasPfx [']', ']'] (r1.drop run.length) then
          some (some ('|' :: run), pfx ++ '|' :: (run ++ [']', ']']),
            (r1.drop run.length).drop 2)
        else none
      else if hasPfx [']', ']'] (c :: r1) then
        some (none, pfx ++ [']', ']'], (c :: r1).drop 2)
      else none
  else none

/-- Global replace for the repair pattern with a string template; `br`
holds the already-consumed part of the original input, reversed. -/
def repairAux (pfx tpl : List Char) : Nat → List Char → List Char → List Char
  | _, _, [] => []
  | 0, _, cs => cs
  | fuel + 1, br, c :: cs =>
    match tryRepair pfx (c :: cs) with
    | some (cap, m, rest) =>
      substTemplate 1 m br.reverse rest cap tpl
        ++ repairAux pfx tpl fuel (m.reverse ++ br) rest
    | none => c :: repairAux pfx tpl fuel (c :: br) cs

/-- Link kinds handled by `replaceHeadingLink` (`linkInfo.type`). -/
inductive RepairKind where
  | internal : RepairKind
  | cross : List Char → RepairKind

/-- `replaceHeadingLink` from the extended source variant: replace the
broken heading link(s) matching the given old heading with the corrected
heading, preserving any alias via the `$1` template reference. -/
def replaceHeadingLink (kind : RepairKind) (old new content : List Char) :
    List Char :=
  match kind with
  | .internal =>
    repairAux ('[' :: '[' :: '#' :: old)
      ('[' :: '[' :: '#' :: (new ++ ['$', '1', ']', ']']))
      content.length [] content
  | .cross basename =>
    repairAux ('[' :: '[' :: (basename ++ '#' :: old))
      ('[' :: '[' :: (basename ++ '#' :: (new ++ ['$', '1', ']', ']'])))
      content.length [] content

theorem tryRepair_rest_lt {pfx cs : List Char} {cap : Option (List Char)}
    {m rest : List Char} (e : tryRepair pfx cs = some (cap, m, rest)) :
    rest.length < cs.length := by
  simp only [tryRepair] at e
  split at e
  · next hpfx =>
    have hple : pfx.length ≤ cs.length := hasPfx_length_le hpfx
    split at e
    · exact absurd e (by simp)
    · next c r1 heq =>
      have hr1 : r1.length + 1 = cs.length - pfx.length := by
        have h := congrArg List.length heq
        simp only [List.length_drop, List.length_cons] at h
        omega
      split at e
      · split at e
        · simp only [Option.some.injEq, Prod.mk.injEq] at e
          obtain ⟨-, -, hrest⟩ := e
          rw [← hrest]
          simp only [List.length_drop]
          omega
        · exact absurd e (by simp)
      · split at e
        · simp only [Option.some.injEq, Prod.mk.injEq] at e
          obtain ⟨-, -, hrest⟩ := e
          rw [← hrest]
          simp only [List.length_drop, List.length_cons]
          omega
        · exact absurd e (by simp)
  · exact absurd e (by simp)

theorem repairAux_congr {pfx tpl : List Char} :
    ∀ (f1 f2 : Nat) (br cs : List Char),
      cs.length ≤ f1 → cs.length ≤ f2 →
      repairAux pfx tpl f1 br cs = repairAux pfx tpl f2 br cs := by
  intro f1
  induction f1 with
  | zero =>
    intro f2 br cs h1 _
    have hnil : cs = [] := List.length_eq_zero.mp (Nat.le_zero.mp h1)
    subst hnil
    cases f2 <;> rfl
  | succ f ih =>
    intro f2 br cs h1 h2
    cases cs with
    | nil => cases f2 <;> rfl
    | cons c cs' =>
      cases f2 with
      | zero => simp at h2
      | succ f2' =>
        have hl1 : cs'.length ≤ f := by simpa using Nat.le_of_succ_le_succ h1
        have hl2 : cs'.length ≤ f2' := by simpa using Nat.le_of_succ_le_succ h2
        cases htry : tryRepair pfx (c :: cs') with
        | none =>
          simp only [repairAux, htry]
          rw [ih f2' (c :: br) cs' hl1 hl2]
        | some pr =>
          obtain ⟨cap, m, rest⟩ := pr
          have hlt := tryRepair_rest_lt htry
          simp only [List.length_cons] at hlt
          simp only [repairAux, htry]
          rw [ih f2' (m.reverse ++ br) rest (by omega) (by omega)]

/-- Canonical-fuel wrapper for `repairAux`. -/
def repairRun (pfx tpl br cs : List Char) : List Char :=
  repairAux pfx tpl cs.length br cs

theorem repairRun_cons_none {pfx tpl : List Char} {c : Char} {br cs : List Char}
    (h : tryRepair pfx (c :: cs) = none) :
    repairRun pfx tpl br (c :: cs) = c :: repairRun pfx tpl (c :: br) cs := by
  unfold repairRun
  simp only [List.length_cons, repairAux, h]

theorem repairRun_cons_some {pfx tpl : List Char} {c : Char}
    {br cs : List Char} {cap : Option (List Char)} {m rest : List Char}
    (h : tryRepair pfx (c :: cs) = some (cap, m, rest)) :
    repairRun pfx tpl br (c :: cs)
      = substTemplate 1 m br.reverse rest cap tpl
        ++ repairRun pfx tpl (m.reverse ++ br) rest := by
  unfold repairRun
  simp only [List.length_cons, repairAux, h]
  have hlt := tryRepair_rest_lt h
  simp only [List.length_cons] at hlt
  rw [repairAux_congr cs.length rest.length (m.reverse ++ br) rest (by omega) le_rfl]

theorem tryRepair_none_head {p cs : List Char} {a c : Char} {cs' : List Char}
    (hcs : cs = c :: cs') (hc : c ≠ a) : tryRepair (a :: p) cs = none := by
  subst hcs
  have h : hasPfx (a :: p) (c :: cs') = false := by
    simp only [hasPfx, Bool.and_eq_false_iff]
    left
    simpa using fun he => hc he.symm
  simp [tryRepair, h]

/-- Text containing no `[` is copied unchanged by the repair scan. -/
theorem repairRun_copy {p tpl : List Char} :
    ∀ (l : List Char), (∀ c ∈ l, c ≠ '[') → ∀ (br rest : List Char),
      repairRun ('[' :: p) tpl br (l ++ rest)
        = l ++ repairRun ('[' :: p) tpl (l.reverse ++ br) rest := by
  intro l
  induction l with
  | nil => intro _ br rest; simp
  | cons c l' ih =>
    intro h br rest
    rw [List.cons_append,
      repairRun_cons_none (tryRepair_none_head rfl (h c (by simp)))]
    rw [ih (fun x hx => h x (by simp [hx])) (c :: br) rest]
    simp

/-- Processing a `$`-free chunk of the replacement template copies it. -/
theorem substTemplateAux_lit {ng : Nat} {m b a : List Char}
    {cap : Option (List Char)} :
    ∀ (l : List Char), '$' ∉ l → ∀ (f : Nat) (t : List Char),
      substTemplateAux ng m b a cap (l.length + f) (l ++ t)
        = l ++ substTemplateAux ng m b a cap f t := by
  intro l
  induction l with
  | nil => intro _ f t; simp
  | cons c l' ih =>
    intro h f t
    have hc : c ≠ '$' := fun e => h (by simp [e])
    have hfe : (c :: l').length + f = (l'.length + f) + 1 := by
      simp only [List.length_cons]
      omega
    rw [hfe, List.cons_append]
    simp only [substTemplateAux]
    rw [if_neg hc]
    rw [ih (fun hx => h (by simp [hx])) f t, List.cons_append]

/-- The repair template `[[#NEW$1]]`, for a `$`-free new heading,
substitutes to `[[#NEW` ++ alias ++ `]]`. -/
theorem substTemplate_repair_tpl {m b a : List Char} {cap : Option (List Char)}
    {new : List Char} (h : '$' ∉ new) :
    substTemplate 1 m b a cap ('[' :: '[' :: '#' :: (new ++ ['$', '1', ']', ']']))
      = '[' :: '[' :: '#' :: (new ++ (cap.getD []) ++ [']', ']']) := by
  unfold substTemplate
  have hl : ('[' :: '[' :: '#' :: (new ++ ['$', '1', ']', ']']))
      = ('[' :: '[' :: '#' :: new) ++ ['$', '1', ']', ']'] := by simp
  have hlen : (('[' :: '[' :: '#' :: new) ++ ['$', '1', ']', ']']).length
      = ('[' :: '[' :: '#' :: new).length + 4 := by simp
  rw [hl, hlen]
  have hnd : '$' ∉ ('[' :: '[' :: '#' :: new) := by
    intro hx
    simp only [List.mem_cons] at hx
    rcases hx with h1 | h1 | h1 | h1
    · exact absurd h1 (by decide)
    · exact absurd h1 (by decide)
    · exact absurd h1 (by decide)
    · exact h h1
  rw [substTemplateAux_lit _ hnd 4 _]
  have htail : substTemplateAux 1 m b a cap 4 ['$', '1', ']', ']']
      = (cap.getD []) ++ [']', ']'] := rfl
  rw [htail]
  simp

/-- The repair pattern matches an alias-free link `[[#old]]` (prefix form)
with no captured group, consuming exactly the link. -/
theorem tryRepair_link (old t : List Char) :
    tryRepair ('[' :: '[' :: '#' :: old) ('[' :: '[' :: '#' :: (old ++ ']' :: ']' :: t))
      = some (none, '[' :: '[' :: '#' :: (old ++ [']', ']']), t) := by
  have hp := hasPfx_append ('[' :: '[' :: '#' :: old) (']' :: ']' :: t)
  have hdrop : ((('[' :: '[' :: '#' :: old)) ++ ']' :: ']' :: t).drop
      (('[' :: '[' :: '#' :: old)).length = ']' :: ']' :: t := List.drop_left _ _
  have hbr : hasPfx [']', ']'] (']' :: ']' :: t) = true := by simp [hasPfx]
  have hne : (']' : Char) ≠ '|' := by decide
  simp only [List.cons_append] at hp hdrop
  simp [tryRepair, hp, hdrop, hbr, hne]

theorem repairRun_nil (pfx tpl br : List Char) : repairRun pfx tpl br [] = [] := rfl

/-- C4 (amended): the targeted repair retargets every occurrence of the
specific old link text, not exactly one: on a document made of
bracket-free text around two occurrences of `[[#old]]`, both occurrences
are retargeted to the chosen heading and all surrounding text is
unchanged (for replacement headings without `$`). -/
theorem C4_repair_all_occurrences (old new pre mid post : List Char)
    (hpre : ∀ c ∈ pre, c ≠ '[') (hmid : ∀ c ∈ mid, c ≠ '[')
    (hpost : ∀ c ∈ post, c ≠ '[') (hnew : '$' ∉ new) :
    replaceHeadingLink .internal old new
        (pre ++ ('[' :: '[' :: '#' :: (old ++ [']', ']'])) ++ mid
          ++ ('[' :: '[' :: '#' :: (old ++ [']', ']'])) ++ post)
      = pre ++ ('[' :: '[' :: '#' :: (new ++ [']', ']'])) ++ mid
          ++ ('[' :: '[' :: '#' :: (new ++ [']', ']'])) ++ post := by
  show repairRun _ _ [] _ = _
  simp only [List.append_assoc]
  rw [repairRun_copy pre hpre]
  have hform : ∀ t : List Char,
      ('[' :: '[' :: '#' :: (old ++ [']', ']'])) ++ t
        = '[' :: ('[' :: '#' :: (old ++ ']' :: ']' :: t)) := by
    intro t; simp
  have hstep : ∀ (br t : List Char),
      repairRun ('[' :: '[' :: '#' :: old)
          ('[' :: '[' :: '#' :: (new ++ ['$', '1', ']', ']'])) br
          (('[' :: '[' :: '#' :: (old ++ [']', ']'])) ++ t)
        = ('[' :: '[' :: '#' :: (new ++ [']', ']']))
          ++ repairRun ('[' :: '[' :: '#' :: old)
              ('[' :: '[' :: '#' :: (new ++ ['$', '1', ']', ']']))
              (('[' :: '[' :: '#' :: (old ++ [']', ']'])).reverse ++ br) t := by
    intro br t
    rw [hform t]
    have htry := tryRepair_link old t
    rw [repairRun_cons_some htry]
    rw [substTemplate_repair_tpl hnew]
    simp
  rw [hstep]
  rw [repairRun_copy mid hmid]
  rw [hstep]
  have hpost2 : ∀ br : List Char,
      repairRun ('[' :: '[' :: '#' :: old)
          ('[' :: '[' :: '#' :: (new ++ ['$', '1', ']', ']'])) br post
        = post := by
    intro br
    have h := @repairRun_copy ('[' :: '#' :: old)
      ('[' :: '[' :: '#' :: (new ++ ['$', '1', ']', ']'])) post hpost br []
    rw [List.append_nil] at h
    rw [h, repairRun_nil, List.append_nil]
  rw [hpost2]

/-- C4 counterexample: with two occurrences of the same broken link text,
the repair (global regex replace) retargets both, not exactly one. -/
theorem C4_counterexample :
    replaceHeadingLink .internal "Old".data "New".data
        "[[#Old]] and [[#Old]]".data
      = "[[#New]] and [[#New]]".data
    ∧ replaceHeadingLink .internal "Old".data "New".data
        "[[#Old]] and [[#Old]]".data
      ≠ "[[#New]] and [[#Old]]".data := by
  exact ⟨by decide, by decide⟩

/-- C4 witness: concrete instance of the amended claim with two
occurrences retargeted. -/
theorem C4_repair_all_occurrences_witness :
    replaceHeadingLink .internal "Old".data "New".data
        ("x ".data ++ ('[' :: '[' :: '#' :: ("Old".data ++ [']', ']'])) ++ " y ".data
          ++ ('[' :: '[' :: '#' :: ("Old".data ++ [']', ']'])) ++ " z".data)
      = "x ".data ++ ('[' :: '[' :: '#' :: ("New".data ++ [']', ']'])) ++ " y ".data
          ++ ('[' :: '[' :: '#' :: ("New".data ++ [']', ']'])) ++ " z".data := by
  exact C4_repair_all_occurrences "Old".data "New".data "x ".data " y ".data
    " z".data (by decide) (by decide) (by decide) (by decide)

/-! The Link Scanner: the four regexes of `validateHeadingLinksInFile`
(and `collectBrokenHeadingLinks`), as position-by-position matchers.

  internal wiki : `\[\[#([^\|\]]+)(?:\|[^\]]*)?\]\]`
  internal md   : `\[.*?\]\(#{1}([^)\s]+)\)`
  cross wiki    : `\[\[([^\|\]]+?)#([^\|\]]+)(?:\|[^\]]*)?\]\]`
  cross md      : `\[.*?\]\(([^)]+?\.md)#([^\)\s]+)\)`
-/

/-- Match attempt of the internal wiki-link pattern at the current
position; returns the captured heading and the rest after the match. -/
def tryIW (cs : List Char) : Option (List Char × List Char) :=
  match cs with
  | '[' :: '[' :: '#' :: r0 =>
    let R := r0.takeWhile (fun c => !(c == '|') && !(c == ']'))
    if R = [] then none
    else
      match r0.drop R.length with
      | [] => none
      | c :: r1 =>
        if c = '|' then
          let run := r1.takeWhile (fun c => !(c == ']'))
          if hasPfx [']', ']'] (r1.drop run.length) then
            some (R, (r1.drop run.length).drop 2)
          else none
        else if hasPfx [']', ']'] (c :: r1) then some (R, (c :: r1).drop 2)
        else none
  | _ => none

/-- After the `]` of `\[.*?\]`, try `\(#([^)\s]+)\)`. -/
def imdAfter (r1 : List Char) : Option (List Char × List Char) :=
  match r1 with
  | '(' :: '#' :: r2 =>
    let R := r2.takeWhile (fun c => !(c == ')') && !(isJsSpace c))
    if R = [] then none
    else
      match r2.drop R.length with
      | ')' :: r3 => some (R, r3)
      | _ => none
  | _ => none

/-- Lazy `.*?\]` search: at each `]` try the tail; `.` cannot cross a line
terminator; on tail failure the lazy run grows past the `]`. -/
def imdScan : Nat → List Char → Option (List Char × List Char)
  | _, [] => none
  | 0, _ => none
  | fuel + 1, c :: cs =>
    if c = ']' then
      match imdAfter cs with
      | some r => some r
      | none => imdScan fuel cs
    else if isLineTerm c then none
    else imdScan fuel cs

/-- Match attempt of the internal markdown-anchor pattern. -/
def tryIMD (cs : List Char) : Option (List Char × List Char) :=
  match cs with
  | '[' :: r0 => imdScan r0.length r0
  | _ => none

/-- After the lazy note-name group of the cross-wiki pattern, match
`#`-heading, optional alias, `]]`. -/
def cwTail (rest : List Char) : Option (List Char × List Char) :=
  let R := rest.takeWhile (fun c => !(c == '|') && !(c == ']'))
  if R = [] then none
  else
    match rest.drop R.length with
    | [] => none
    | c :: r1 =>
      if c = '|' then
        let run := r1.takeWhile (fun c => !(c == ']'))
        if hasPfx [']', ']'] (r1.drop run.length) then
          some (R, (r1.drop run.length).drop 2)
        else none
      else if hasPfx [']', ']'] (c :: r1) then some (R, (c :: r1).drop 2)
      else none

/-- Lazy search for the `#` terminating the cross-wiki note-name group
(`[^\|\]]+?`, nonempty, may itself contain `#`). -/
def cwScan : Nat → List Char → List Char → Option ((List Char × List Char) × List Char)
  | _, _, [] => none
  | 0, _, _ => none
  | fuel + 1, accRev, c :: cs =>
    if c = '#' then
      match accRev with
      | [] => cwScan fuel (c :: accRev) cs
      | _ :: _ =>
        match cwTail cs with
        | some (R2, after) => some ((accRev.reverse, R2), after)
        | none => cwScan fuel (c :: accRev) cs
    else if c = '|' ∨ c = ']' then none
    else cwScan fuel (c :: accRev) cs

/-- Match attempt of the cross-file wiki-link pattern; returns
((note, heading), rest). -/
def tryCW (cs : List Char) : Option ((List Char × List Char) × List Char) :=
  match cs with
  | '[' :: '[' :: r0 => cwScan r0.length [] r0
  | _ => none

/-- Lazy search for the `.md` terminating the cross-md path group
(`[^)]+?\.md`, the part before `.md` nonempty and `)`-free). -/
def cmdPath : Nat → List Char → List Char → Option ((List Char × List Char) × List Char)
  | _, _, [] => none
  | 0, _, _ => none
  | fuel + 1, accRev, c :: cs =>
    if accRev ≠ [] ∧ hasPfx ['.', 'm', 'd'] (c :: cs) then
      match (c :: cs).drop 3 with
      | '#' :: r3 =>
        let R := r3.takeWhile (fun c => !(c == ')') && !(isJsSpace c))
        if R = [] then
          if c = ')' then none else cmdPath fuel (c :: accRev) cs
        else
          match r3.drop R.length with
          | ')' :: r4 => some ((accRev.reverse ++ ['.', 'm', 'd'], R), r4)
          | _ => if c = ')' then none else cmdPath fuel (c :: accRev) cs
      | _ => if c = ')' then none else cmdPath fuel (c :: accRev) cs
    else if c = ')' then none
    else cmdPath fuel (c :: accRev) cs

/-- After the `]` of `\[.*?\]`, try `\(([^)]+?\.md)#([^\)\s]+)\)`. -/
def cmdAfter (r1 : List Char) : Option ((List Char × List Char) × List Char) :=
  match r1 with
  | '(' :: r2 => cmdPath r2.length [] r2
  | _ => none

/-- Lazy `.*?\]` search for the cross-md pattern. -/
def cmdScan : Nat → List Char → Option ((List Char × List Char) × List Char)
  | _, [] => none
  | 0, _ => none
  | fuel + 1, c :: cs =>
    if c = ']' then
      match cmdAfter cs with
      | some r => some r
      | none => cmdScan fuel cs
    else if isLineTerm c then none
    else cmdScan fuel cs

/-- Match attempt of the cross-file markdown pattern; returns
((path, heading), rest). -/
def tryCMD (cs : List Char) : Option ((List Char × List Char) × List Char) :=
  match cs with
  | '[' :: r0 => cmdScan r0.length r0
  | _ => none

/-- Global scan collecting every internal-wiki capture, in order. -/
def scanIWAux : Nat → List Char → List (List Char)
  | _, [] => []
  | 0, _ => []
  | fuel + 1, c :: cs =>
    match tryIW (c :: cs) with
    | some (h, rest) => h :: scanIWAux fuel rest
    | none => scanIWAux fuel cs

def scanIW (content : List Char) : List (List Char) :=
  scanIWAux content.length content

/-- Global scan collecting every internal-markdown capture, in order. -/
def scanIMDAux : Nat → List Char → List (List Char)
  | _, [] => []
  | 0, _ => []
  | fuel + 1, c :: cs =>
    match tryIMD (c :: cs) with
    | some (h, rest) => h :: scanIMDAux fuel rest
    | none => scanIMDAux fuel cs

def scanIMD (content : List Char) : List (List Char) :=
  scanIMDAux content.length content

/-- Global scan collecting every cross-wiki (note, heading) capture. -/
def scanCWAux : Nat → List Char → List (List Char × List Char)
  | _, [] => []
  | 0, _ => []
  | fuel + 1, c :: cs =>
    match tryCW (c :: cs) with
    | some (p, rest) => p :: scanCWAux fuel rest
    | none => scanCWAux fuel cs

def scanCW (content : List Char) : List (List Char × List Char) :=
  scanCWAux content.length content

/-- Global scan collecting every cross-markdown (path, heading) capture. -/
def scanCMDAux : Nat → List Char → List (List Char × List Char)
  | _, [] => []
  | 0, _ => []
  | fuel + 1, c :: cs =>
    match tryCMD (c :: cs) with
    | some (p, rest) => p :: scanCMDAux fuel rest
    | none => scanCMDAux fuel cs

def scanCMD (content : List Char) : List (List Char × List Char) :=
  scanCMDAux content.length content

/-! Claim C7: broken-link classification in `validateHeadingLinksInFile`.
The vault and the note-name resolver are external collaborators, modelled
as functions. -/

/-- External collaborators of the validator: `metadataCache.
getFirstLinkpathDest` (note name and source path to target path) and
`vault.getAbstractFileByPath` restricted to markdown files
(path to content; `none` covers both a missing file and a non-markdown
file, for which the code emits nothing). -/
structure VaultEnv where
  resolve : List Char → List Char → Option (List Char)
  lookup : List Char → Option (List Char)

def mfWikiMsg (note heading : List Char) : List Char :=
  "Missing file: [[".data ++ note ++ "#".data ++ heading ++ "]]".data

def mfMdMsg (path heading : List Char) : List Char :=
  "Missing file: [→ ".data ++ path ++ "#".data ++ heading ++ "]".data

def mhMsg (targetPath heading : List Char) : List Char :=
  "Missing heading: ".data ++ targetPath ++ "#".data ++ heading

/-- `path.replace(/\.md$/, "")`: strip one trailing `.md`. -/
def stripMdSuffix (p : List Char) : List Char :=
  if hasPfx ['d', 'm', '.'] p.reverse then (p.reverse.drop 3).reverse else p

/-- The final loop body of `validateHeadingLinksInFile`: look the target
up in the vault; if it is a markdown file whose headings do not include
the linked heading, produce the missing-heading message. -/
def headingMissing (env : VaultEnv) (targetPath heading : List Char) :
    Option (List Char) :=
  match env.lookup targetPath with
  | some c => if heading ∈ extractHeadings c then none
              else some (mhMsg targetPath heading)
  | none => none

/-- `validateHeadingLinksInFile` from `main.ts`: the list of broken-link
messages, in the order the code pushes them (missing-file messages from
the two cross-file passes first, then missing-heading messages in
`allMatches` order). -/
def validateHeadingLinksInFile (env : VaultEnv) (selfPath content : List Char)
    (checkCross : Bool) : List (List Char) :=
  let iw := scanIW content
  let imd := scanIMD content
  let cw := if checkCross then scanCW content else []
  let cmd := if checkCross then scanCMD content else []
  let cwResolved := cw.filterMap
    (fun p => (env.resolve p.1 selfPath).map (fun tp => (tp, p.2)))
  let cmdResolved := cmd.filterMap
    (fun p => (env.resolve (stripMdSuffix p.1) selfPath).map (fun tp => (tp, p.2)))
  let mfMsgs :=
    (cw.filter (fun p => (env.resolve p.1 selfPath).isNone)).map
        (fun p => mfWikiMsg p.1 p.2)
      ++ (cmd.filter (fun p => (env.resolve (stripMdSuffix p.1) selfPath).isNone)).map
        (fun p => mfMdMsg p.1 p.2)
  let allMatches := iw.map (fun h => (selfPath, h))
      ++ imd.map (fun h => (selfPath, h)) ++ cwResolved ++ cmdResolved
  mfMsgs ++ allMatches.filterMap (fun p => headingMissing env p.1 p.2)

/-- Record(s) contributed by one cross-wiki occurrence, per the spec: an
unresolved note yields exactly one missing-file record, a resolved target
lacking the heading yields exactly one missing-heading record. -/
def crossWikiRecord (env : VaultEnv) (selfPath : List Char)
    (p : List Char × List Char) : List (List Char) :=
  match env.resolve p.1 selfPath with
  | none => [mfWikiMsg p.1 p.2]
  | some tp => (headingMissing env tp p.2).toList

/-- Record(s) contributed by one cross-markdown occurrence. -/
def crossMdRecord (env : VaultEnv) (selfPath : List Char)
    (p : List Char × List Char) : List (List Char) :=
  match env.resolve (stripMdSuffix p.1) selfPath with
  | none => [mfMdMsg p.1 p.2]
  | some tp => (headingMissing env tp p.2).toList

/-- The broken-link list assembled occurrence by occurrence in scanner
order, as §4.5 of the spec describes `findBroken`. -/
def findBrokenSpec (env : VaultEnv) (selfPath content : List Char)
    (checkCross : Bool) : List (List Char) :=
  (scanIW content).filterMap (fun h => headingMissing env selfPath h)
    ++ (scanIMD content).filterMap (fun h => headingMissing env selfPath h)
    ++ (if checkCross then scanCW content else []).flatMap
        (crossWikiRecord env selfPath)
    ++ (if checkCross then scanCMD content else []).flatMap
        (crossMdRecord env selfPath)

/-- Splitting a per-occurrence record list by resolution outcome: the
records of a mixed pass are a permutation of the missing-file records of
the unresolved occurrences followed by the record of each resolved one. -/
theorem perm_records {α γ δ β : Type} (l : List α) (r : α → Option γ)
    (F : α → β) (m : α → γ → δ) (H : δ → Option β) (g : α → List β)
    (hgn : ∀ p, r p = none → g p = [F p])
    (hgs : ∀ p tp, r p = some tp → g p = (H (m p tp)).toList) :
    List.Perm (l.flatMap g)
      ((l.filter (fun p => (r p).isNone)).map F
          ++ (l.filterMap (fun p => (r p).map (m p))).filterMap H) := by
  induction l with
  | nil => simp
  | cons p l' ih =>
    have hfm : ∀ (x : δ) (xs : List δ),
        List.filterMap H (x :: xs) = (H x).toList ++ List.filterMap H xs := by
      intro x xs
      cases hx : H x <;> simp [List.filterMap_cons, hx]
    cases hr : r p with
    | none =>
      simp only [List.flatMap_cons, hgn p hr, List.filter_cons,
        List.filterMap_cons, hr, Option.isNone_none, Option.map_none, if_pos,
        List.map_cons, List.singleton_append, List.cons_append]
      exact ih.cons (F p)
    | some tp =>
      have e1 : List.filter (fun p => (r p).isNone) (p :: l')
          = List.filter (fun p => (r p).isNone) l' := by
        simp [List.filter_cons, hr]
      have e2 : List.filterMap (fun p => (r p).map (m p)) (p :: l')
          = m p tp :: List.filterMap (fun p => (r p).map (m p)) l' := by
        simp [List.filterMap_cons, hr]
      simp only [List.flatMap_cons, hgs p tp hr]
      rw [e1, e2, hfm]
      exact List.Perm.trans (ih.append_left ((H (m p tp)).toList))
        (List.perm_append_comm_assoc _ _ _)
      
/-- C7: the validator's broken-link list is a permutation of the
occurrence-by-occurrence classification (each unresolved cross-file
occurrence contributes exactly one missing-file record, each occurrence
whose resolved target lacks the heading exactly one missing-heading
record, and every other occurrence nothing); in particular a document
whose occurrences all resolve and whose referenced headings all exist
yields the empty list. -/
theorem C7_broken_link_classification (env : VaultEnv)
    (selfPath content : List Char) (checkCross : Bool) :
    List.Perm (validateHeadingLinksInFile env selfPath content checkCross)
        (findBrokenSpec env selfPath content checkCross)
      ∧ (findBrokenSpec env selfPath content checkCross = [] →
          validateHeadingLinksInFile env selfPath content checkCross = []) := by
  have hperm : List.Perm (validateHeadingLinksInFile env selfPath content checkCross)
      (findBrokenSpec env selfPath content checkCross) := by
    have hcwP := perm_records (if checkCross then scanCW content else [])
      (fun p => env.resolve p.1 selfPath)
      (fun p => mfWikiMsg p.1 p.2)
      (fun p tp => (tp, p.2))
      (fun q => headingMissing env q.1 q.2)
      (crossWikiRecord env selfPath)
      (by intro p hp; simp [crossWikiRecord, hp])
      (by intro p tp hp; simp [crossWikiRecord, hp])
    have hcmdP := perm_records (if checkCross then scanCMD content else [])
      (fun p => env.resolve (stripMdSuffix p.1) selfPath)
      (fun p => mfMdMsg p.1 p.2)
      (fun p tp => (tp, p.2))
      (fun q => headingMissing env q.1 q.2)
      (crossMdRecord env selfPath)
      (by intro p hp; simp [crossMdRecord, hp])
      (by intro p tp hp; simp [crossMdRecord, hp])
    rw [List.perm_iff_count]
    intro b
    have hmapIW : ((scanIW content).map (fun h => (selfPath, h))).filterMap
          (fun p => headingMissing env p.1 p.2)
        = (scanIW content).filterMap (fun h => headingMissing env selfPath h) := by
      rw [List.filterMap_map]
      rfl
    have hmapIMD : ((scanIMD content).map (fun h => (selfPath, h))).filterMap
          (fun p => headingMissing env p.1 p.2)
        = (scanIMD content).filterMap (fun h => headingMissing env selfPath h) := by
      rw [List.filterMap_map]
      rfl
    have h1 := List.Perm.count_eq hcwP b
    have h2 := List.Perm.count_eq hcmdP b
    simp only [validateHeadingLinksInFile, findBrokenSpec,
      List.filterMap_append, hmapIW, hmapIMD, List.count_append]
    simp only [List.count_append] at h1 h2
    omega
  exact ⟨hperm, fun h => List.Perm.eq_nil (h ▸ hperm)⟩

/-! Claim C8: where the captured heading text of each link syntax stops.
The wiki classes `[^\|\]]+` stop at the first `|` or `]`; the markdown
classes `[^)\s]+` stop at the first `)` or whitespace character, so a
markdown anchor whose heading text contains whitespace is not matched. -/

theorem tryIMD_none_head {c : Char} {cs : List Char} (hc : (c == '[') = false) :
    tryIMD (c :: cs) = none := by
  unfold tryIMD
  split
  · rename_i r0 heq
    simp at heq
    simp [heq.1] at hc
  · rfl

theorem scanIMDAux_none (fuel : Nat) :
    ∀ cs : List Char, (∀ c ∈ cs, (c == '[') = false) → scanIMDAux fuel cs = [] := by
  induction fuel with
  | zero => intro cs h; cases cs <;> rfl
  | succ fuel ih =>
    intro cs h
    cases cs with
    | nil => rfl
    | cons c cs' =>
      simp only [scanIMDAux, tryIMD_none_head (h c (List.mem_cons_self c cs'))]
      exact ih cs' (fun d hd => h d (List.mem_cons_of_mem c hd))

theorem imdScan_none (fuel : Nat) :
    ∀ cs : List Char, (∀ c ∈ cs, (c == ']') = false) → imdScan fuel cs = none := by
  induction fuel with
  | zero => intro cs h; cases cs <;> rfl
  | succ fuel ih =>
    intro cs h
    cases cs with
    | nil => rfl
    | cons c cs' =>
      have hc : (c == ']') = false := h c (List.mem_cons_self c cs')
      simp only [imdScan]
      rw [if_neg (fun hh => by simp [hh] at hc)]
      by_cases hlt : isLineTerm c = true
      · rw [if_pos hlt]
      · rw [if_neg hlt]
        exact ih cs' (fun d hd => h d (List.mem_cons_of_mem c hd))

theorem imdAfter_space_none (g t : List Char)
    (hg : ∀ c ∈ g, (c == ')') = false) :
    imdAfter ('(' :: '#' :: (g ++ ' ' :: t)) = none := by
  simp only [imdAfter]
  by_cases hR : (g ++ ' ' :: t).takeWhile
      (fun c : Char => !(c == ')') && !(isJsSpace c)) = []
  · simp [hR]
  · rw [if_neg hR, drop_length_takeWhile,
      dropWhile_append_stop g (by decide)]
    cases hgd : g.dropWhile (fun c : Char => !(c == ')') && !(isJsSpace c)) with
    | nil => simp
    | cons w ws =>
      have hwne : (w == ')') = false :=
        hg w ((List.dropWhile_sublist _).subset (hgd ▸ List.mem_cons_self w ws))
      simp only [List.cons_append]
      split
      · rename_i r3 heq
        simp at heq
        simp [heq.1] at hwne
      · rfl

theorem tryIMD_space_none (g t : List Char)
    (hg : ∀ c ∈ g, (c == ')') = false)
    (hnb : ∀ c ∈ g ++ t, (c == ']') = false) :
    tryIMD ('[' :: ']' :: '(' :: '#' :: (g ++ ' ' :: t)) = none := by
  simp [tryIMD, imdScan, imdAfter_space_none g t hg, isLineTerm]
  exact imdScan_none _ _ (by
    intro c hc
    simp only [List.mem_append, List.mem_cons] at hc
    rcases hc with hmem | rfl | hmem
    · exact hnb c (List.mem_append_left _ hmem)
    · decide
    · exact hnb c (List.mem_append_right _ hmem))

theorem tryIW_single (h : List Char) (hne : h ≠ [])
    (hok : ∀ c ∈ h, (c == '|') = false ∧ (c == ']') = false) :
    tryIW ('[' :: '[' :: '#' :: (h ++ [']', ']'])) = some (h, []) := by
  have hall : ∀ c ∈ h, (fun c : Char => !(c == '|') && !(c == ']')) c = true := by
    intro c hc
    simp [(hok c hc).1, (hok c hc).2]
  have hR : (h ++ [']', ']']).takeWhile
      (fun c : Char => !(c == '|') && !(c == ']')) = h := by
    rw [takeWhile_append_stop h (by decide), List.takeWhile_eq_self_iff.mpr hall]
  simp only [tryIW, hR, if_neg hne, List.drop_left]
  simp [hasPfx]

theorem scanIW_single (h : List Char) (hne : h ≠ [])
    (hok : ∀ c ∈ h, (c == '|') = false ∧ (c == ']') = false) :
    scanIW ('[' :: '[' :: '#' :: (h ++ [']', ']'])) = [h] := by
  simp only [scanIW, List.length_cons, scanIWAux, tryIW_single h hne hok]

theorem cwTail_single (h : List Char) (hne : h ≠ [])
    (hok : ∀ c ∈ h, (c == '|') = false ∧ (c == ']') = false) :
    cwTail (h ++ [']', ']']) = some (h, []) := by
  have hall : ∀ c ∈ h, (fun c : Char => !(c == '|') && !(c == ']')) c = true := by
    intro c hc
    simp [(hok c hc).1, (hok c hc).2]
  have hR : (h ++ [']', ']']).takeWhile
      (fun c : Char => !(c == '|') && !(c == ']')) = h := by
    rw [takeWhile_append_stop h (by decide), List.takeWhile_eq_self_iff.mpr hall]
  simp only [cwTail, hR, if_neg hne, List.drop_left]
  simp [hasPfx]

theorem scanCW_single (h : List Char) (hne : h ≠ [])
    (hok : ∀ c ∈ h, (c == '|') = false ∧ (c == ']') = false) :
    scanCW ('[' :: '[' :: 'N' :: '#' :: (h ++ [']', ']'])) = [(['N'], h)] := by
  have h2 : tryCW ('[' :: '[' :: 'N' :: '#' :: (h ++ [']', ']']))
      = some ((['N'], h), []) := by
    simp only [tryCW, List.length_cons, cwScan]
    simp only [cwTail_single h hne hok]
    simp
  simp only [scanCW, List.length_cons, scanCWAux, h2]

theorem imdAfter_single (g : List Char) (gne : g ≠ [])
    (gok : ∀ c ∈ g, (c == ')') = false ∧ isJsSpace c = false) :
    imdAfter ('(' :: '#' :: (g ++ [')'])) = some (g, []) := by
  have hall : ∀ c ∈ g, (fun c : Char => !(c == ')') && !(isJsSpace c)) c = true := by
    intro c hc
    simp [(gok c hc).1, (gok c hc).2]
  have hR : (g ++ [')']).takeWhile
      (fun c : Char => !(c == ')') && !(isJsSpace c)) = g := by
    rw [takeWhile_append_stop g (by decide), List.takeWhile_eq_self_iff.mpr hall]
  simp only [imdAfter, hR, if_neg gne, List.drop_left]

theorem scanIMD_single (g : List Char) (gne : g ≠ [])
    (gok : ∀ c ∈ g, (c == ')') = false ∧ isJsSpace c = false) :
    scanIMD ('[' :: ']' :: '(' :: '#' :: (g ++ [')'])) = [g] := by
  have h2 : tryIMD ('[' :: ']' :: '(' :: '#' :: (g ++ [')'])) = some (g, []) := by
    simp [tryIMD, imdScan, imdAfter_single g gne gok, isLineTerm]
  simp only [scanIMD, List.length_cons, scanIMDAux, h2]

theorem cmdPath_single (g : List Char) (gne : g ≠ [])
    (gok : ∀ c ∈ g, (c == ')') = false ∧ isJsSpace c = false) (f : Nat) :
    cmdPath (f + 1 + 1) [] ('n' :: '.' :: 'm' :: 'd' :: '#' :: (g ++ [')']))
      = some ((['n', '.', 'm', 'd'], g), []) := by
  have hall : ∀ c ∈ g, (fun c : Char => !(c == ')') && !(isJsSpace c)) c = true := by
    intro c hc
    simp [(gok c hc).1, (gok c hc).2]
  have hR : (g ++ [')']).takeWhile
      (fun c : Char => !(c == ')') && !(isJsSpace c)) = g := by
    rw [takeWhile_append_stop g (by decide), List.takeWhile_eq_self_iff.mpr hall]
  simp only [cmdPath, hasPfx, List.drop_succ_cons, List.drop_zero, hR]
  simp [gne, List.drop_left]

theorem scanCMD_single (g : List Char) (gne : g ≠ [])
    (gok : ∀ c ∈ g, (c == ')') = false ∧ isJsSpace c = false) :
    scanCMD ('[' :: ']' :: '(' :: 'n' :: '.' :: 'm' :: 'd' :: '#' :: (g ++ [')']))
      = [(['n', '.', 'm', 'd'], g)] := by
  have h3 := cmdPath_single g gne gok ((g ++ [')']).length + 3)
  have h4 : cmdAfter ('(' :: 'n' :: '.' :: 'm' :: 'd' :: '#' :: (g ++ [')']))
      = some ((['n', '.', 'm', 'd'], g), []) := by
    simp only [cmdAfter, List.length_cons]
    have he : (g ++ [')']).length + 1 + 1 + 1 + 1 + 1
        = ((g ++ [')']).length + 3) + 1 + 1 := by omega
    rw [he]
    exact h3
  have h2 : tryCMD ('[' :: ']' :: '(' :: 'n' :: '.' :: 'm' :: 'd' :: '#' :: (g ++ [')']))
      = some ((['n', '.', 'm', 'd'], g), []) := by
    simp [tryCMD, cmdScan, isLineTerm, h4]
  simp only [scanCMD, List.length_cons, scanCMDAux, h2]

theorem scanIMDAux_cons_none {fuel : Nat} {c : Char} {cs : List Char}
    (h : tryIMD (c :: cs) = none) :
    scanIMDAux (fuel + 1) (c :: cs) = scanIMDAux fuel cs := by
  simp only [scanIMDAux, h]

/-- C8 counterexample: the internal markdown-anchor class `[^)\s]+` stops
at whitespace as well as at `)`, so `[text](#My Heading)` is not scanned
as an occurrence with heading text `My Heading` — it is not matched at
all — while the same link without the space is matched. -/
theorem C8_counterexample :
    scanIMD "[text](#My Heading)".data = []
      ∧ scanIMD "[text](#MyHeading)".data = ["MyHeading".data] := by
  decide

/-- C8 (amended): captured heading text extends to the first terminating
delimiter of its syntax and no earlier, where for the wiki forms the
delimiters are `|` and `]`, and for the markdown forms they are `)` and
any whitespace character: a delimiter-free heading is captured whole in
all four syntaxes, a wiki heading may contain whitespace, and a markdown
anchor whose heading text contains whitespace is not matched at all. -/
theorem C8_capture_delimiters (h g g2 : List Char) (hne : h ≠ [])
    (hok : ∀ c ∈ h, (c == '|') = false ∧ (c == ']') = false)
    (gne : g ≠ [])
    (gok : ∀ c ∈ g, (c == ')') = false ∧ isJsSpace c = false)
    (hbr : ∀ c ∈ g ++ g2, (c == '[') = false ∧ (c == ']') = false) :
    scanIW ('[' :: '[' :: '#' :: (h ++ [']', ']'])) = [h]
    ∧ scanCW ('[' :: '[' :: 'N' :: '#' :: (h ++ [']', ']'])) = [(['N'], h)]
    ∧ scanIMD ('[' :: ']' :: '(' :: '#' :: (g ++ [')'])) = [g]
    ∧ scanCMD ('[' :: ']' :: '(' :: 'n' :: '.' :: 'm' :: 'd' :: '#' :: (g ++ [')']))
        = [(['n', '.', 'm', 'd'], g)]
    ∧ scanIMD ('[' :: ']' :: '(' :: '#' :: (g ++ ' ' :: (g2 ++ [')']))) = [] := by
  refine ⟨scanIW_single h hne hok, scanCW_single h hne hok,
    scanIMD_single g gne gok, scanCMD_single g gne gok, ?_⟩
  have ht : tryIMD ('[' :: ']' :: '(' :: '#' :: (g ++ ' ' :: (g2 ++ [')']))) = none :=
    tryIMD_space_none g (g2 ++ [')']) (fun c hc => (gok c hc).1) (by
      intro c hc
      rcases List.mem_append.mp hc with hcg | hct
      · exact (hbr c (List.mem_append_left _ hcg)).2
      · rcases List.mem_append.mp hct with hcg2 | hcp
        · exact (hbr c (List.mem_append_right _ hcg2)).2
        · rcases List.mem_singleton.mp hcp with rfl
          decide)
  simp only [scanIMD, List.length_cons]
  rw [scanIMDAux_cons_none ht]
  exact scanIMDAux_none _ _ (by
    intro c hc
    simp only [List.mem_cons, List.mem_append, List.mem_nil_iff, or_false] at hc
    rcases hc with rfl | rfl | rfl | hmem | rfl | hmem | rfl
    · decide
    · decide
    · decide
    · exact (hbr c (List.mem_append_left _ hmem)).1
    · decide
    · exact (hbr c (List.mem_append_right _ hmem)).1
    · decide)

/-- C8 witness: the amended delimiter behaviour at concrete inputs — a
wiki heading containing a space is captured whole, markdown headings are
captured up to `)`, and a markdown heading with a space fails. -/
theorem C8_capture_delimiters_witness :
    scanIW "[[#A B]]".data = ["A B".data]
    ∧ scanCW "[[N#A B]]".data = [("N".data, "A B".data)]
    ∧ scanIMD "[](#H)".data = ["H".data]
    ∧ scanCMD "[](n.md#H)".data = [("n.md".data, "H".data)]
    ∧ scanIMD "[](#H W)".data = [] := by
  have := C8_capture_delimiters ['A', ' ', 'B'] ['H'] ['W']
    (by decide)
    (by intro c hc; fin_cases hc <;> exact ⟨by decide, by decide⟩)
    (by decide)
    (by
      intro c hc
      fin_cases hc
      exact ⟨by decide, by decide⟩)
    (by intro c hc; fin_cases hc <;> exact ⟨by decide, by decide⟩)
  exact this

/-! Claim C9: the suggestion ranking of `FixBrokenLinksModal.onOpen`,
`existingHeadings.map(h => ({h, score: jaro(h, link.heading).similarity}))
.sort((a, b) => b.score - a.score).slice(0, 3)`. The scorer `jaro` comes
from the external `wink-jaro-distance` package, which is not part of this
repository's sources, so it is modelled from the spec's description. -/

/-- Modelled from the spec: the Jaro matching window,
`floor(max(len1, len2) / 2) - 1` (an integer, possibly negative). -/
def jrWin (l1 l2 : Nat) : Int := (Int.ofNat (max l1 l2 / 2)) - 1

/-- Modelled from the spec: the first not-yet-used position of `s2`
inside the window that holds the character `c`. -/
def jrFind (s2 : List Char) (used : List Nat) (c : Char) (lo hi : Int) :
    Option Nat :=
  (List.range s2.length).find? (fun j =>
    decide (lo ≤ (j : Int)) && decide ((j : Int) ≤ hi)
      && !(used.contains j) && (s2.getD j ' ' == c))

/-- Modelled from the spec: one matching step — extend the matched pairs
by the window match for the `i`-th character of `s1`, if any. -/
def jrStep (s2 : List Char) (w : Int) (acc : List (Char × Nat))
    (ic : Nat × Char) : List (Char × Nat) :=
  match jrFind s2 (acc.map (fun p => p.2)) ic.2 ((ic.1 : Int) - w)
      ((ic.1 : Int) + w) with
  | some j => acc ++ [(ic.2, j)]
  | none => acc

/-- Modelled from the spec: the Jaro matched pairs, each a character of
`s1` (in `s1` order) with its matched position of `s2`. -/
def jrPairs (s1 s2 : List Char) : List (Char × Nat) :=
  s1.enum.foldl (jrStep s2 (jrWin s1.length s2.length)) []

/-- Modelled from the spec: twice the Jaro transposition count — the
number of positions at which the matched characters of `s1` (in `s1`
order) and the matched characters of `s2` (in `s2` order) disagree. -/
def jrTrans (s2 : List Char) (ps : List (Char × Nat)) : Nat :=
  ((ps.map (fun p => p.1)).zip
    ((List.insertionSort (fun i j => i ≤ j) (ps.map (fun p => p.2))).map
      (fun j => s2.getD j ' '))).countP (fun q => !(q.1 == q.2))

/-- Modelled from the spec: the Jaro similarity — `1` for identical
strings, `0` when nothing matches, otherwise the average of `m/len1`,
`m/len2` and `(m - t/2)/m`. -/
def jaroSim (s1 s2 : List Char) : ℚ :=
  if s1 = s2 then 1
  else if (jrPairs s1 s2).length = 0 then 0
  else (((jrPairs s1 s2).length : ℚ) / s1.length
    + ((jrPairs s1 s2).length : ℚ) / s2.length
    + (((jrPairs s1 s2).length : ℚ)
        - (jrTrans s2 (jrPairs s1 s2) : ℚ) / 2)
      / ((jrPairs s1 s2).length : ℚ)) / 3

/-- The suggestion ranking of `FixBrokenLinksModal.onOpen`: score each
candidate heading against the broken heading text, sort descending by
score with a stable sort, keep the first three. -/
def rankSuggestions (broken : List Char) (cands : List (List Char)) :
    List (List Char × ℚ) :=
  (List.insertionSort (fun a b : List Char × ℚ => b.2 ≤ a.2)
    (cands.map (fun h => (h, jaroSim h broken)))).take 3

theorem jrStep_length_le (s2 : List Char) (w : Int) (acc : List (Char × Nat))
    (ic : Nat × Char) : (jrStep s2 w acc ic).length ≤ acc.length + 1 := by
  unfold jrStep
  cases jrFind s2 (acc.map (fun p => p.2)) ic.2 ((ic.1 : Int) - w)
      ((ic.1 : Int) + w) <;> simp

theorem foldl_jrStep_length (s2 : List Char) (w : Int) :
    ∀ (l : List (Nat × Char)) (acc : List (Char × Nat)),
      (l.foldl (jrStep s2 w) acc).length ≤ acc.length + l.length := by
  intro l
  induction l with
  | nil => intro acc; simp
  | cons ic l ih =>
    intro acc
    have h1 := ih (jrStep s2 w acc ic)
    have h2 := jrStep_length_le s2 w acc ic
    simp only [List.foldl_cons, List.length_cons]
    omega

theorem jrPairs_length_le_left (s1 s2 : List Char) :
    (jrPairs s1 s2).length ≤ s1.length := by
  have h := foldl_jrStep_length s2 (jrWin s1.length s2.length) s1.enum []
  simpa [jrPairs, List.enum_length] using h

theorem jrFind_some {s2 : List Char} {used : List Nat} {c : Char}
    {lo hi : Int} {j : Nat} (h : jrFind s2 used c lo hi = some j) :
    j < s2.length ∧ j ∉ used := by
  unfold jrFind at h
  have hmem := List.mem_of_find?_eq_some h
  have hpred := List.find?_some h
  refine ⟨List.mem_range.mp hmem, ?_⟩
  simp only [Bool.and_eq_true, Bool.not_eq_true'] at hpred
  intro hj
  have := hpred.1.2
  simp [hj] at this

theorem foldl_jrStep_nodup (s2 : List Char) (w : Int) :
    ∀ (l : List (Nat × Char)) (acc : List (Char × Nat)),
      ((acc.map (fun p => p.2)).Nodup
        ∧ ∀ j ∈ acc.map (fun p => p.2), j < s2.length) →
      (((l.foldl (jrStep s2 w) acc).map (fun p => p.2)).Nodup
        ∧ ∀ j ∈ (l.foldl (jrStep s2 w) acc).map (fun p => p.2),
            j < s2.length) := by
  intro l
  induction l with
  | nil => intro acc h; simpa using h
  | cons ic l ih =>
    intro acc h
    simp only [List.foldl_cons]
    apply ih
    unfold jrStep
    cases hf : jrFind s2 (acc.map (fun p => p.2)) ic.2 ((ic.1 : Int) - w)
        ((ic.1 : Int) + w) with
    | none => exact h
    | some j =>
      obtain ⟨hjlt, hjnot⟩ := jrFind_some hf
      constructor
      · simp only [List.map_append, List.map_cons, List.map_nil]
        rw [List.nodup_append]
        refine ⟨h.1, List.nodup_singleton j, ?_⟩
        intro x hx hx2
        rw [List.mem_singleton] at hx2
        subst hx2
        exact hjnot hx
      · intro x hx
        simp only [List.map_append, List.map_cons, List.map_nil,
          List.mem_append, List.mem_singleton] at hx
        rcases hx with hx | rfl
        · exact h.2 x hx
        · exact hjlt

theorem jrPairs_length_le_right (s1 s2 : List Char) :
    (jrPairs s1 s2).length ≤ s2.length := by
  have h := foldl_jrStep_nodup s2 (jrWin s1.length s2.length) s1.enum []
    (by simp)
  have hsub : (List.foldl (jrStep s2 (jrWin s1.length s2.length)) [] s1.enum).map
      (fun p => p.2) ⊆ List.range s2.length := by
    intro x hx
    exact List.mem_range.mpr (h.2 x hx)
  have hlen := (h.1.subperm hsub).length_le
  simpa [jrPairs] using hlen

theorem jrTrans_le (s2 : List Char) (ps : List (Char × Nat)) :
    jrTrans s2 ps ≤ ps.length := by
  unfold jrTrans
  refine le_trans (List.countP_le_length _) ?_
  rw [List.length_zip]
  simp [List.length_insertionSort]

theorem jaroSim_unit (s1 s2 : List Char) :
    0 ≤ jaroSim s1 s2 ∧ jaroSim s1 s2 ≤ 1 := by
  unfold jaroSim
  by_cases heq : s1 = s2
  · simp [heq]
  · rw [if_neg heq]
    by_cases hm : (jrPairs s1 s2).length = 0
    · simp [hm]
    · rw [if_neg hm]
      have hm1 : (jrPairs s1 s2).length ≤ s1.length := jrPairs_length_le_left s1 s2
      have hm2 : (jrPairs s1 s2).length ≤ s2.length := jrPairs_length_le_right s1 s2
      have ht : jrTrans s2 (jrPairs s1 s2) ≤ (jrPairs s1 s2).length :=
        jrTrans_le s2 (jrPairs s1 s2)
      have hm0 : 1 ≤ (jrPairs s1 s2).length := Nat.one_le_iff_ne_zero.mpr hm
      have hM : (0:ℚ) < ((jrPairs s1 s2).length : ℚ) := by exact_mod_cast hm0
      have hL1n : 0 < s1.length := by omega
      have hL2n : 0 < s2.length := by omega
      have hL1 : (0:ℚ) < (s1.length : ℚ) := by exact_mod_cast hL1n
      have hL2 : (0:ℚ) < (s2.length : ℚ) := by exact_mod_cast hL2n
      have hMq1 : ((jrPairs s1 s2).length : ℚ) ≤ (s1.length : ℚ) := by
        exact_mod_cast hm1
      have hMq2 : ((jrPairs s1 s2).length : ℚ) ≤ (s2.length : ℚ) := by
        exact_mod_cast hm2
      have hTq : (jrTrans s2 (jrPairs s1 s2) : ℚ) ≤ ((jrPairs s1 s2).length : ℚ) := by
        exact_mod_cast ht
      have hT0 : (0:ℚ) ≤ (jrTrans s2 (jrPairs s1 s2) : ℚ) := by positivity
      have e1 : ((jrPairs s1 s2).length : ℚ) / (s1.length : ℚ) ≤ 1 :=
        (div_le_one hL1).mpr hMq1
      have e2 : ((jrPairs s1 s2).length : ℚ) / (s2.length : ℚ) ≤ 1 :=
        (div_le_one hL2).mpr hMq2
      have e3 : (((jrPairs s1 s2).length : ℚ)
          - (jrTrans s2 (jrPairs s1 s2) : ℚ) / 2) / ((jrPairs s1 s2).length : ℚ)
          ≤ 1 := (div_le_one hM).mpr (by linarith)
      have f1 : (0:ℚ) ≤ ((jrPairs s1 s2).length : ℚ) / (s1.length : ℚ) := by
        positivity
      have f2 : (0:ℚ) ≤ ((jrPairs s1 s2).length : ℚ) / (s2.length : ℚ) := by
        positivity
      have f3 : (0:ℚ) ≤ (((jrPairs s1 s2).length : ℚ)
          - (jrTrans s2 (jrPairs s1 s2) : ℚ) / 2) / ((jrPairs s1 s2).length : ℚ) :=
        div_nonneg (by linarith) (le_of_lt hM)
      constructor <;> linarith

theorem jaroSim_wireguard :
    jaroSim "Wireguard".data "Wiregaurd".data = 26/27 := by
  have hlW : (jrPairs "Wireguard".data "Wiregaurd".data).length = 9 := by decide
  have htW : jrTrans "Wiregaurd".data (jrPairs "Wireguard".data "Wiregaurd".data)
      = 2 := by decide
  have hd1 : "Wireguard".data.length = 9 := by decide
  have hd2 : "Wiregaurd".data.length = 9 := by decide
  unfold jaroSim
  rw [if_neg (by decide : ¬("Wireguard".data = "Wiregaurd".data)),
    hlW, htW, hd1, hd2, if_neg (by decide : ¬(9 = 0))]
  norm_num

theorem jaroSim_unrelated :
    jaroSim "Unrelated".data "Wiregaurd".data = 17/27 := by
  have hlU : (jrPairs "Unrelated".data "Wiregaurd".data).length = 4 := by decide
  have htU : jrTrans "Wiregaurd".data (jrPairs "Unrelated".data "Wiregaurd".data)
      = 0 := by decide
  have hd1 : "Unrelated".data.length = 9 := by decide
  have hd2 : "Wiregaurd".data.length = 9 := by decide
  unfold jaroSim
  rw [if_neg (by decide : ¬("Unrelated".data = "Wiregaurd".data)),
    hlU, htU, hd1, hd2, if_neg (by decide : ¬(4 = 0))]
  norm_num

theorem rank_wireguard :
    rankSuggestions "Wiregaurd".data ["Wireguard".data, "Unrelated".data]
      = [("Wireguard".data, 26/27), ("Unrelated".data, 17/27)] := by
  unfold rankSuggestions
  rw [List.map_cons, List.map_cons, List.map_nil, jaroSim_wireguard,
    jaroSim_unrelated]
  rw [List.insertionSort, List.insertionSort, List.insertionSort,
    List.orderedInsert, List.orderedInsert]
  rw [if_pos (by norm_num : ((17:ℚ)/27) ≤ 26/27)]
  simp [List.take]

theorem rank_sorted (broken : List Char) (cands : List (List Char)) :
    List.Sorted (fun a b : List Char × ℚ => b.2 ≤ a.2)
      (rankSuggestions broken cands) := by
  haveI : IsTotal (List Char × ℚ) (fun a b => b.2 ≤ a.2) :=
    ⟨fun a b => le_total b.2 a.2⟩
  haveI : IsTrans (List Char × ℚ) (fun a b => b.2 ≤ a.2) :=
    ⟨fun a b c hab hbc => le_trans hbc hab⟩
  have hs := List.sorted_insertionSort (fun a b : List Char × ℚ => b.2 ≤ a.2)
    (cands.map (fun h => (h, jaroSim h broken)))
  exact List.Pairwise.sublist (List.take_sublist 3 _) hs

theorem rank_scores (broken : List Char) (cands : List (List Char)) :
    ∀ p ∈ rankSuggestions broken cands, p.2 = jaroSim p.1 broken := by
  intro p hp
  have h1 := List.take_subset 3 _ hp
  have h2 : p ∈ cands.map (fun h => (h, jaroSim h broken)) :=
    (List.perm_insertionSort _ _).subset h1
  obtain ⟨h, hh, rfl⟩ := List.mem_map.mp h2
  rfl

/-- C9: the suggestion ranker scores every candidate with the Jaro
similarity, every score lies in `[0, 1]` with identical strings scoring
exactly `1`, the ranked list is sorted in descending score order, and
for broken text `Wiregaurd` with candidates `Wireguard` and `Unrelated`,
`Wireguard` ranks first with a strictly greater score (`26/27` against
`17/27`). -/
theorem C9_suggestion_ranking (broken : List Char) (cands : List (List Char)) :
    (∀ s : List Char, 0 ≤ jaroSim s broken ∧ jaroSim s broken ≤ 1)
    ∧ jaroSim broken broken = 1
    ∧ List.Sorted (fun a b : List Char × ℚ => b.2 ≤ a.2)
        (rankSuggestions broken cands)
    ∧ (∀ p ∈ rankSuggestions broken cands, p.2 = jaroSim p.1 broken)
    ∧ (rankSuggestions "Wiregaurd".data
          ["Wireguard".data, "Unrelated".data]).map (fun p => p.1)
        = ["Wireguard".data, "Unrelated".data]
    ∧ jaroSim "Unrelated".data "Wiregaurd".data
        < jaroSim "Wireguard".data "Wiregaurd".data := by
  refine ⟨fun s => jaroSim_unit s broken, by simp [jaroSim],
    rank_sorted broken cands, rank_scores broken cands, ?_, ?_⟩
  · rw [rank_wireguard]
    rfl
  · rw [jaroSim_wireguard, jaroSim_unrelated]
    norm_num

end AnchorLink
